import Mathlib

/-!
Shallow embedding of the geocoding resolution pipeline of
`new_orleans_surveillance_map` (scripts/import_loose_records.py and
scripts/import_nopd_cameras.py), together with proofs settling the
frozen claims about it.

Modelling conventions:
* Python strings are `String`/`List Char`; character classes (`\w`, `\s`,
  `str.lower`, `str.strip`) are modelled over ASCII, which covers the
  locale-specific address data the scripts handle.
* Python floats appear in the scripts only as opaque values parsed from and
  re-rendered to decimal text, so coordinates are carried as their decimal
  text (`String`); where a proof needs the fact that a rendered float is
  never the empty string this is an explicit hypothesis.
* External services (Nominatim forward/reverse geocoding, DuckDuckGo text
  search) are stub functions supplied as parameters; `none` models every
  swallowed failure (timeout, non-2xx, malformed payload, zero results).
* Rate limiting (`time.sleep`) and diagnostic printing are effects outside
  the data contract and are not modelled.
-/

set_option maxRecDepth 16000

namespace NolaGeo

/-- ASCII model of the characters Python `str.strip` / regex `\s` treat as
whitespace. -/
def isPyWs (c : Char) : Bool :=
  c = ' ' || c = '\t' || c = '\n' || c = '\r' || c = '\x0b' || c = '\x0c'

/-- ASCII model of Python regex word characters (`\w`), which delimit the
`\b` boundaries used by the scripts' patterns. -/
def isWordChar (c : Char) : Bool :=
  c.isAlphanum || c = '_'

/-- Python `str.strip()` on a character list. -/
def stripChars (l : List Char) : List Char :=
  ((l.dropWhile isPyWs).reverse.dropWhile isPyWs).reverse

/-- Python `str.strip()`. -/
def pyStrip (s : String) : String :=
  ⟨stripChars s.data⟩

/-- Python `str.rstrip(",")`. -/
def rstripCommas (s : String) : String :=
  ⟨(s.data.reverse.dropWhile (fun c => c = ',')).reverse⟩

/-- Case-insensitive (ASCII) lowering of a character list, modelling
`str.lower()`. -/
def lowerChars (l : List Char) : List Char :=
  l.map Char.toLower

/-- Decidable substring containment (Python `in` on strings). -/
def containsSub (w : List Char) : List Char → Bool
  | [] => w.isEmpty
  | c :: cs => w.isPrefixOf (c :: cs) || containsSub w cs

/-! ### The substitution engine for `_NOLA_EXPANSIONS`

Each pattern in `_NOLA_EXPANSIONS` has the restricted shape
`\b w₁ (sep) w₂ … \b` where each `wᵢ` is a case-insensitive literal word and
each separator is `\.?\s+` or `\.\s+`.  `RTok` is exactly that token
language, and `runToks` is the (deterministic) matcher for it; for these
patterns Python's backtracking regex engine is deterministic, because the
optional dot and the greedy `\s+` are always followed by a letter literal. -/

/-- One token of an expansion pattern. -/
inductive RTok where
  /-- a case-insensitive literal run of letters -/
  | lit (w : List Char)
  /-- `\.?` when `req = false`, `\.` when `req = true` -/
  | pdot (req : Bool)
  /-- `\s+` when `one = true`; the residual `\s*` state when `one = false` -/
  | pws (one : Bool)
deriving DecidableEq

/-- Case-insensitive literal matching: consume `w` from the head of the
string and return the rest. -/
def stripCI : List Char → List Char → Option (List Char)
  | [], s => some s
  | _ :: _, [] => none
  | a :: w, c :: cs => if c.toLower = a.toLower then stripCI w cs else none

/-- Run a token program against a string, returning the rest of the string
after the match (position semantics of the Python patterns, minus the final
`\b`, which `mAt` adds).  The greedy `\s+` is resolved by maximal munch,
which is faithful because in every pattern it is followed by a letter
literal; likewise the optional dot commits whenever a dot is present,
because `\s+` can never match the dot itself. -/
def runToks : List RTok → List Char → Option (List Char)
  | [], s => some s
  | .lit w :: ts, s =>
      match stripCI w s with
      | some r => runToks ts r
      | none => none
  | .pdot req :: ts, s =>
      match s with
      | c :: cs => if c = '.' then runToks ts cs else if req then none else runToks ts (c :: cs)
      | [] => if req then none else runToks ts []
  | .pws one :: ts, s =>
      let ws := s.takeWhile isPyWs
      if one ∧ ws = [] then none else runToks ts (s.drop ws.length)

/-- The trailing `\b` of the patterns: the position after the match must be
the end of the string or a non-word character. -/
def bndOk : List Char → Bool
  | [] => true
  | c :: _ => !isWordChar c

/-- Match a full pattern (token program plus trailing `\b`) at the head of
`s`; the leading `\b` is checked by the caller, which tracks the previous
character. -/
def mAt (ts : List RTok) (s : List Char) : Option (List Char) :=
  match runToks ts s with
  | some r => if bndOk r then some r else none
  | none => none

/-- An expansion pattern: the leading literal is split off so that every
pattern provably consumes at least one character. -/
structure Pat where
  a : Char
  w : List Char
  rest : List RTok

/-- The token program of a pattern. -/
def Pat.toks (p : Pat) : List RTok :=
  .lit (p.a :: p.w) :: p.rest

/-- Boundary state after emitting a replacement: determined by its last
character, or unchanged if the replacement is empty (matching how `re.sub`
resumes scanning after the replaced span). -/
def flagAfter (repl : List Char) (b : Bool) : Bool :=
  match repl.getLast? with
  | some c => !isWordChar c
  | none => b

/-- `re.sub(pattern, repl, s)` for one expansion pattern: scan left to
right, at each word boundary try the pattern, replace non-overlapping
matches, and resume after the replacement.  The scan is driven by a fuel
counter so that it is structurally recursive; since every pattern consumes
at least one character, fuel `s.length` is always enough and the
fuel-exhausted branch is dead (`subAuxF_fuel_irrel` below). -/
def subAuxF (p : Pat) (repl : List Char) : Nat → List Char → Bool → List Char
  | _, [], _ => []
  | 0, s, _ => s
  | fuel + 1, c :: cs, atB =>
    if atB then
      match mAt p.toks (c :: cs) with
      | some rest => repl ++ subAuxF p repl fuel rest (flagAfter repl atB)
      | none => c :: subAuxF p repl fuel cs (!isWordChar c)
    else c :: subAuxF p repl fuel cs (!isWordChar c)

/-- Apply one expansion from the start-of-string boundary. -/
def subPat (p : Pat) (repl : List Char) (s : List Char) : List Char :=
  subAuxF p repl s.length s true

/-- Pattern `\bTchoup\b` of `_NOLA_EXPANSIONS`. -/
def patTchoup : Pat := ⟨'t', "choup".data, []⟩

/-- Pattern `\bSt\.?\s+Phillip\b`. -/
def patStPhillip : Pat := ⟨'s', "t".data, [.pdot false, .pws true, .lit "phillip".data]⟩

/-- Pattern `\bRoberston\b`. -/
def patRoberston : Pat := ⟨'r', "oberston".data, []⟩

/-- Pattern `\bS\.\s+Peters\b`. -/
def patSPeters : Pat := ⟨'s', [], [.pdot true, .pws true, .lit "peters".data]⟩

/-- Pattern `\bN\.\s+Robertson\b`. -/
def patNRobertson : Pat := ⟨'n', [], [.pdot true, .pws true, .lit "robertson".data]⟩

/-- Replacement text of `\bTchoup\b`. -/
def replTchoup : List Char := "Tchoupitoulas".data

/-- Replacement text of `\bSt\.?\s+Phillip\b`. -/
def replStPhillip : List Char := "St Philip".data

/-- Replacement text of `\bRoberston\b`. -/
def replRoberston : List Char := "Robertson".data

/-- Replacement text of `\bS\.\s+Peters\b`. -/
def replSPeters : List Char := "South Peters".data

/-- Replacement text of `\bN\.\s+Robertson\b`. -/
def replNRobertson : List Char := "North Robertson".data

/-- The ordered `_NOLA_EXPANSIONS` table of `import_loose_records.py`. -/
def nolaExpansions : List (Pat × List Char) :=
  [(patTchoup, replTchoup),
   (patStPhillip, replStPhillip),
   (patRoberston, replRoberston),
   (patSPeters, replSPeters),
   (patNRobertson, replNRobertson)]

/-- `normalize_address`: apply the five expansions in order, each as a full
`re.sub` pass over the whole string. -/
def normalize_address (s : String) : String :=
  ⟨nolaExpansions.foldl (fun acc pr => subPat pr.1 pr.2 acc) s.data⟩

/-- The locality suffix appended by `ensure_nola`. -/
def nolaSuffix : String := ", New Orleans, Louisiana"

/-- `ensure_nola`: normalize abbreviations, then append the New Orleans
context unless the lowercased string already mentions the city or state. -/
def ensure_nola (s : String) : String :=
  let address := normalize_address s
  if containsSub "new orleans".data (lowerChars address.data)
      || containsSub "louisiana".data (lowerChars address.data) then
    address
  else
    address ++ nolaSuffix

/-! ### The `ADDR_RE` search engine

`ADDR_RE` is
`\b\d{1,5}\s+(?:[NSEW]\.?\s+)?[A-Z][a-zA-Z]+(?:\s+[A-Z][a-zA-Z]+)*\s+(SUF)\b`
with `re.IGNORECASE`, where `SUF` is the fixed alternation of street-type
suffixes and known local street names.  Under `IGNORECASE`, `[A-Z][a-zA-Z]+`
is any run of at least two letters; because every token that follows a
greedy `\d{1,5}`, `\s+`, `[a-zA-Z]+` or `[NSEW]\.?\s+` begins with a letter,
Python's backtracking search is equivalent to the deterministic maximal-run
scan implemented here, with the greedy word-star resolved by keeping the
farthest reachable suffix word (`chainScan`). -/

/-- `[a-zA-Z]` (under `IGNORECASE`, also `[A-Z]`). -/
def isLetterC (c : Char) : Bool := c.isAlpha

/-- The suffix alternation of `ADDR_RE`, lowercased, with the optional
groups `St(?:reet)?` / `Ave(?:nue)?` expanded.  Followed by `\b`, an
alternative matches exactly when the whole maximal word run equals it. -/
def streetWords : List (List Char) :=
  ["st", "street", "ave", "avenue", "blvd", "rd", "dr", "ct", "ln", "pl",
   "way", "hwy", "pkwy", "bienville", "bourbon", "decatur", "frenchmen",
   "chartres", "royal", "toulouse", "burgundy", "iberville", "canal",
   "tchoupitoulas", "tchoup"].map String.data

/-- The optional compass group `(?:[NSEW]\.?\s+)?`: returns the consumed
characters and the rest.  When the group matches, the alternative of not
taking it always fails (the next mandatory token needs two letters and the
compass letter is then followed by a dot or whitespace), so committing to
the group is faithful to the backtracking engine. -/
def matchCompass (s : List Char) : List Char × List Char :=
  match s with
  | [] => ([], [])
  | c :: rest =>
    if c.toLower = 'n' || c.toLower = 's' || c.toLower = 'e' || c.toLower = 'w' then
      match rest with
      | '.' :: r2 =>
        let ws := r2.takeWhile isPyWs
        if ws = [] then ([], s) else (c :: '.' :: ws, r2.drop ws.length)
      | _ =>
        let ws := rest.takeWhile isPyWs
        if ws = [] then ([], s) else (c :: ws, rest.drop ws.length)
    else ([], s)

/-- Resolve `(?:\s+[A-Z][a-zA-Z]+)*\s+(SUF)\b` greedily: walk the chunks
`(whitespace, letter-run)` after the first word and remember the farthest
chunk whose run is a suffix word followed by a `\b`; a run of fewer than
two letters cannot be a middle word, so the walk stops there.  `fuel`
bounds the recursion by the remaining string length. -/
def chainScan (fuel : Nat) (matched : List Char) (best : Option (List Char))
    (cur : List Char) : Option (List Char) :=
  match fuel with
  | 0 => best
  | fuel + 1 =>
    let ws := cur.takeWhile isPyWs
    if ws = [] then best
    else
      let cur1 := cur.drop ws.length
      let run := cur1.takeWhile isLetterC
      if run = [] then best
      else
        let cur2 := cur1.drop run.length
        let matched2 := matched ++ ws ++ run
        let best2 :=
          if lowerChars run ∈ streetWords ∧ bndOk cur2 then some matched2 else best
        if run.length ≥ 2 then chainScan fuel matched2 best2 cur2
        else best2

/-- Try `ADDR_RE` at the head of `s` (the leading `\b` is the caller's
responsibility); returns the matched text, i.e. `match.group(0)`. -/
def matchAddrAt (s : List Char) : Option (List Char) :=
  let ds := s.takeWhile Char.isDigit
  if ds = [] ∨ ds.length > 5 then none
  else
    let s1 := s.drop ds.length
    let ws1 := s1.takeWhile isPyWs
    if ws1 = [] then none
    else
      let s2 := s1.drop ws1.length
      let comp := matchCompass s2
      let run := comp.2.takeWhile isLetterC
      if run.length < 2 then none
      else
        let s4 := comp.2.drop run.length
        chainScan s4.length (ds ++ ws1 ++ comp.1 ++ run) none s4

/-- Leftmost search of `ADDR_RE` (`ADDR_RE.search(text)`), tracking the
word-boundary state character by character. -/
def searchAddrAux : List Char → Bool → Option (List Char)
  | [], _ => none
  | c :: cs, atB =>
    if atB then
      match matchAddrAt (c :: cs) with
      | some m => some m
      | none => searchAddrAux cs (!isWordChar c)
    else searchAddrAux cs (!isWordChar c)

/-- `ADDR_RE.search` from the start of the string. -/
def addrSearch (s : List Char) : Option (List Char) :=
  searchAddrAux s true

/-! ### `ddg_find_address` and `geocode_row` -/

/-- One DuckDuckGo text-search result (the fields the script reads). -/
structure Snippet where
  title : String
  body : String
deriving DecidableEq

/-- The text the script scans for one result:
`result.get("body", "") + " " + result.get("title", "")`. -/
def snippetText (sn : Snippet) : String :=
  sn.body ++ " " ++ sn.title

/-- Scan snippets in result order and return the first `ADDR_RE` match,
stripped (`match.group(0).strip()`). -/
def firstAddr : List Snippet → Option String
  | [] => none
  | sn :: rest =>
    match addrSearch (snippetText sn).data with
    | some m => some (pyStrip ⟨m⟩)
    | none => firstAddr rest

/-- `ddg_find_address`.  `avail` is the capability flag for the optional
`ddgs`/`duckduckgo_search` dependency (import failure means the function
always returns `None`); `fetch` stubs `DDGS().text(query, max_results=5)`,
with `none` modelling a raised provider error and the `take 5` modelling
the `max_results=5` bound on the snippets scanned. -/
def ddg_find_address (avail : Bool) (fetch : String → Option (List Snippet))
    (business_name : String) : Option String :=
  if !avail then none
  else
    match fetch (business_name ++ " New Orleans address") with
    | none => none
    | some rs => firstAddr (rs.take 5)

/-- Result of one successful Nominatim forward lookup: `(lat, lon,
display_name)`, coordinates as their decimal text. -/
structure GeoFix where
  lat : String
  lon : String
  display : String
deriving DecidableEq

/-- The dict `geocode_row` returns: latitude/longitude hold the rendered
coordinate on success and the empty string when unresolved. -/
structure RowGeo where
  latitude : String
  longitude : String
  street_address : String
  notes : String
deriving DecidableEq

/-- `geocode_row`: the ordered, short-circuiting strategy chain.  `nom`
stubs `nominatim_geocode` (`none` covers zero results and every swallowed
transport error). -/
def geocode_row (nom : String → Option GeoFix) (ddgAvail : Bool)
    (ddgFetch : String → Option (List Snippet))
    (business_name apparent_address : String) : RowGeo :=
  let s1 : Option RowGeo :=
    if apparent_address ≠ "" then
      match nom (ensure_nola apparent_address) with
      | some f => some ⟨f.lat, f.lon, apparent_address,
          "geocoded:nominatim_address | " ++ f.display.take 80⟩
      | none => none
    else none
  match s1 with
  | some r => r
  | none =>
    let s2 : Option RowGeo :=
      if business_name ≠ "" then
        match nom (business_name ++ ", New Orleans, Louisiana") with
        | some f => some ⟨f.lat, f.lon, apparent_address,
            "geocoded:nominatim_name | " ++ f.display.take 80⟩
        | none => none
      else none
    match s2 with
    | some r => r
    | none =>
      let s3 : Option RowGeo :=
        if business_name ≠ "" then
          match ddg_find_address ddgAvail ddgFetch business_name with
          | some addr =>
            match nom (ensure_nola addr) with
            | some f => some ⟨f.lat, f.lon, addr,
                "geocoded:ddg_fallback | " ++ f.display.take 80⟩
            | none => none
          | none => none
        else none
      match s3 with
      | some r => r
      | none => ⟨"", "", apparent_address, "UNRESOLVED: manual geocoding needed"⟩

/-! ### Batch runner of `import_loose_records.py` -/

/-- One row of the forward pipeline's resolved output CSV
(`OUTPUT_FIELDS`, in schema order). -/
structure LooseRecord where
  id : String
  cross_road : String
  street_address : String
  latitude : String
  longitude : String
  facial_recognition : String
  associated_shop : String
  status : String
  reported_by : String
  reported_at : String
  vetted_at : String
  vetted_by : String
  notes : String
deriving DecidableEq

/-- One row of the failures CSV (`FAILURE_FIELDS`). -/
structure FailureRow where
  associated_shop : String
  street_address : String
  notes : String
deriving DecidableEq

/-- The output dict built in the `main` loop for one input row. -/
def looseRecord (business_name : String) (geo : RowGeo) : LooseRecord :=
  { id := ""
    cross_road := ""
    street_address := geo.street_address
    latitude := geo.latitude
    longitude := geo.longitude
    facial_recognition := "False"
    associated_shop := business_name
    status := "pending"
    reported_by := ""
    reported_at := ""
    vetted_at := ""
    vetted_by := ""
    notes := geo.notes }

/-- Projection `{k: r[k] for k in FAILURE_FIELDS}`. -/
def failureRow (r : LooseRecord) : FailureRow :=
  ⟨r.associated_shop, r.street_address, r.notes⟩

/-- Parsing of one data row of the input CSV: pad to two columns, strip the
business name, strip/comma-rstrip/strip the apparent address, and skip the
row when both results are empty. -/
def parseRow (line : List String) : Option (String × String) :=
  let padded := if line.length < 2 then line ++ List.replicate (2 - line.length) "" else line
  let business_name := pyStrip (padded.getD 0 "")
  let apparent_address := pyStrip (rstripCommas (pyStrip (padded.getD 1 "")))
  if business_name = "" ∧ apparent_address = "" then none
  else some (business_name, apparent_address)

/-- The `main` result-building loop: one appended output dict per parsed
row, in input order. -/
def looseProcess (nom : String → Option GeoFix) (ddgAvail : Bool)
    (ddgFetch : String → Option (List Snippet))
    (rows : List (String × String)) : List LooseRecord :=
  rows.foldl
    (fun acc row =>
      acc ++ [looseRecord row.1 (geocode_row nom ddgAvail ddgFetch row.1 row.2)])
    []

/-- `resolved = [r for r in results if r["latitude"] != ""]`. -/
def looseResolved (results : List LooseRecord) : List LooseRecord :=
  results.filter (fun r => r.latitude ≠ "")

/-- `unresolved = [r for r in results if r["latitude"] == ""]`. -/
def looseUnresolved (results : List LooseRecord) : List LooseRecord :=
  results.filter (fun r => r.latitude = "")

/-- The whole forward-pipeline run, from process start to the two written
outputs.  `requestsAvail` models whether `import requests` succeeds (its
failure calls `sys.exit(1)` before `main`); `input = none` models a missing
or unreadable input file (`sys.exit(1)`); an input with no lines at all
makes `next(reader)` raise an uncaught `StopIteration`, killing the process
with a non-zero exit, which is also modelled as `Except.error 1`.  On
success, the pair holds the rows written to `clean_camera_import.csv` and
to `camera_import_failures.csv`. -/
def looseRun (requestsAvail : Bool) (input : Option (List (List String)))
    (nom : String → Option GeoFix) (ddgAvail : Bool)
    (ddgFetch : String → Option (List Snippet)) :
    Except Nat (List LooseRecord × List FailureRow) :=
  if !requestsAvail then .error 1
  else
    match input with
    | none => .error 1
    | some [] => .error 1
    | some (_header :: body) =>
      let rows := body.filterMap parseRow
      let results := looseProcess nom ddgAvail ddgFetch rows
      .ok (looseResolved results, (looseUnresolved results).map failureRow)

/-! ### Reverse pipeline of `import_nopd_cameras.py` -/

/-- The decoded JSON payload of one Nominatim reverse lookup, reduced to
the fields the script reads.  `errorFlag` models `not data or "error" in
data` (an empty payload or an explicit provider-reported error). -/
structure RevResponse where
  errorFlag : Bool
  house_number : String
  road : String
  display_name : String

/-- `reverse_geocode`: `none` on transport error (`resp = none`) or a
provider-reported error; otherwise synthesize the street address from
house number and road and return it with the display name. -/
def reverse_geocode (resp : Option RevResponse) : Option (String × String) :=
  match resp with
  | none => none
  | some r =>
    if r.errorFlag then none
    else
      let street_address :=
        if r.road ≠ "" then
          if r.house_number ≠ "" then pyStrip (r.house_number ++ " " ++ r.road)
          else r.road
        else ""
      some (street_address, r.display_name)

/-- One row of `nopd_camera_import.csv` (`OUTPUT_FIELDS` of the reverse
script, which adds `camera_type`). -/
structure NopdRecord where
  id : String
  cross_road : String
  street_address : String
  latitude : String
  longitude : String
  facial_recognition : String
  associated_shop : String
  camera_type : String
  status : String
  reported_by : String
  reported_at : String
  vetted_at : String
  vetted_by : String
  notes : String
deriving DecidableEq

/-- The record built for a successful reverse lookup. -/
def nopdResolvedRecord (lat lon street display : String) : NopdRecord :=
  { id := ""
    cross_road := ""
    street_address := street
    latitude := lat
    longitude := lon
    facial_recognition := "False"
    associated_shop := ""
    camera_type := "nopd"
    status := "vetted"
    reported_by := "nopd_import_2026-02-27"
    reported_at := ""
    vetted_at := ""
    vetted_by := ""
    notes := "reverse_geocoded:nominatim | " ++ display.take 80 }

/-- The record built when the reverse lookup fails. -/
def nopdUnresolvedRecord (lat lon : String) : NopdRecord :=
  { id := ""
    cross_road := ""
    street_address := ""
    latitude := lat
    longitude := lon
    facial_recognition := "False"
    associated_shop := "NOPD Camera"
    camera_type := "nopd"
    status := "vetted"
    reported_by := "nopd_import_2026-02-27"
    reported_at := ""
    vetted_at := ""
    vetted_by := ""
    notes := "UNRESOLVED: reverse geocoding failed" }

/-- One iteration of the reverse script's loop: every record is appended to
`results`; a failed lookup additionally records the coordinate pair in the
`unresolved` list (which is only echoed to stderr, never written to a
CSV). -/
def nopdStep (rev : String × String → Option RevResponse)
    (acc : List NopdRecord × List (String × String)) (coord : String × String) :
    List NopdRecord × List (String × String) :=
  match reverse_geocode (rev coord) with
  | some sd => (acc.1 ++ [nopdResolvedRecord coord.1 coord.2 sd.1 sd.2], acc.2)
  | none => (acc.1 ++ [nopdUnresolvedRecord coord.1 coord.2], acc.2 ++ [coord])

/-- The reverse script's loop over the parsed coordinate rows (each
coordinate carried as its decimal text, as parsed from the CSV). -/
def nopdProcess (rev : String × String → Option RevResponse)
    (coords : List (String × String)) : List NopdRecord × List (String × String) :=
  coords.foldl (nopdStep rev) ([], [])

/-- The whole reverse-pipeline run.  Same fatal-condition modelling as
`looseRun` for the dependency guard and the input file; `csv.DictReader`
tolerates an empty file, so no empty-input case is fatal here.  On success
the first component is the single written output CSV (`results`, holding
both resolved and unresolved records) and the second is the stderr-only
list of unresolved coordinates. -/
def nopdRun (requestsAvail : Bool) (input : Option (List (String × String)))
    (rev : String × String → Option RevResponse) :
    Except Nat (List NopdRecord × List (String × String)) :=
  if !requestsAvail then .error 1
  else
    match input with
    | none => .error 1
    | some coords => .ok (nopdProcess rev coords)

/-! ### Proof devices -/

/-- The fixed notes text of an unresolved forward record. -/
def unresolvedNotes : String := "UNRESOLVED: manual geocoding needed"

/-- No match of the token program `ts` starts at any position of `s`,
scanning with word-boundary flag `atB` for the head position. -/
def noMatchTs (ts : List RTok) : List Char → Bool → Bool
  | [], _ => true
  | c :: cs, atB =>
    (!atB || (mAt ts (c :: cs)).isNone) && noMatchTs ts cs (!isWordChar c)

/-- No match of pattern `p` starts at any position of `s`. -/
def noMatch (p : Pat) (s : List Char) (b : Bool) : Bool :=
  noMatchTs p.toks s b

/-- The string ends in a whitespace run followed by a word of the `ADDR_RE`
suffix alternation. -/
def EndsWithStreet (x : List Char) : Prop :=
  ∃ pre ws run, x = pre ++ ws ++ run ∧ ws ≠ [] ∧ (∀ c ∈ ws, isPyWs c = true) ∧
    lowerChars run ∈ streetWords

/-- The shape `ADDR_RE` guarantees of a match: the text begins with a one-
to five-digit house number followed by whitespace (optionally then a
compass token, which this predicate does not constrain further) and ends
with a whitespace-preceded word of the suffix alternation (a street-type
suffix or a known local street name). -/
def AddrShape (s : String) : Prop :=
  (∃ d c cs, s.data = d ++ c :: cs ∧ d ≠ [] ∧ d.length ≤ 5 ∧
    (∀ x ∈ d, x.isDigit = true) ∧ isPyWs c = true) ∧
  EndsWithStreet s.data

/-- Weight of one token, the pattern part of the termination measure of the
transfer lemma. -/
def tokWeight : RTok → Nat
  | .lit w => w.length + 1
  | .pdot _ => 1
  | .pws _ => 1

/-- Weight of a token list. -/
def toksWeight (ts : List RTok) : Nat :=
  (ts.map tokWeight).sum

/-- The well-formedness every `_NOLA_EXPANSIONS` pattern satisfies: the
tokens after the first word are empty, or exactly a dot separator, a
whitespace run, and a non-empty second word. -/
def patShape (p : Pat) : Prop :=
  p.rest = [] ∨ ∃ d w2, w2 ≠ [] ∧ p.rest = [RTok.pdot d, RTok.pws true, RTok.lit w2]

/-- The matcher states of an expansion pattern reachable while consuming
characters: the whole pattern with part of a word peeled off, the
separator states, and the final empty state. -/
def stateOf (p : Pat) (ts : List RTok) : Prop :=
  ts = [] ∨
  (∃ u, u ≠ [] ∧ u.IsSuffix (p.a :: p.w) ∧ ts = .lit u :: p.rest) ∨
  (∃ d w2, p.rest = [RTok.pdot d, RTok.pws true, RTok.lit w2] ∧
    (ts = p.rest ∨ ts = [RTok.pws true, RTok.lit w2] ∨ ts = [RTok.pws false, RTok.lit w2] ∨
     (∃ u, u ≠ [] ∧ u.IsSuffix w2 ∧ ts = [RTok.lit u])))

/-- Result of simulating the matcher on a prefix of the text: definite
failure, definite success with the given rest of the prefix, or an outcome
that depends on what follows the prefix. -/
inductive SimRes where
  /-- The matcher fails whatever follows the prefix. -/
  | fail : SimRes
  /-- The matcher consumes part of the prefix and leaves `rest` of it. -/
  | ok (rest : List Char) : SimRes
  /-- The prefix was exhausted mid-match. -/
  | unknown : SimRes
deriving DecidableEq

/-- Simulate `stripCI` on a prefix. -/
def simStrip : List Char → List Char → SimRes
  | [], s => .ok s
  | _ :: _, [] => .unknown
  | a :: w, c :: cs => if c.toLower = a.toLower then simStrip w cs else .fail

/-- Simulate `runToks` on a prefix of the text. -/
def simRun : List RTok → List Char → SimRes
  | [], s => .ok s
  | .lit w :: ts, s =>
      match simStrip w s with
      | .ok r => simRun ts r
      | .fail => .fail
      | .unknown => .unknown
  | .pdot _ :: _, [] => .unknown
  | .pdot req :: ts, c :: cs =>
      if c = '.' then simRun ts cs
      else if req then .fail else simRun ts (c :: cs)
  | .pws one :: ts, s =>
      if s.takeWhile isPyWs = s then .unknown
      else if one ∧ s.takeWhile isPyWs = [] then .fail
      else simRun ts (s.drop (s.takeWhile isPyWs).length)

/-- Decidable check that `mAt ts` fails on every text starting with `R`. -/
def failsWithin (ts : List RTok) (R : List Char) : Bool :=
  match simRun ts R with
  | .fail => true
  | .ok rest =>
      match rest with
      | [] => false
      | c :: _ => isWordChar c
  | .unknown => false

/-- Decidable check that no match of `ts` can start inside `R`, whatever
follows it. -/
def nmWithin (ts : List RTok) : List Char → Bool → Bool
  | [], _ => true
  | c :: cs, atB => (!atB || failsWithin ts (c :: cs)) && nmWithin ts cs (!isWordChar c)

/-- The matcher states of a pattern, as a computable list (mirrors
`stateOf`). -/
def statesList (p : Pat) : List (List RTok) :=
  [[]] ++
  ((p.a :: p.w).tails.filter (fun u => !u.isEmpty)).map (fun u => RTok.lit u :: p.rest) ++
  (match p.rest with
   | [RTok.pdot _, RTok.pws _, RTok.lit w2] =>
      [p.rest, [RTok.pws true, RTok.lit w2], [RTok.pws false, RTok.lit w2]] ++
      (w2.tails.filter (fun u => !u.isEmpty)).map (fun u => [RTok.lit u])
   | _ => [])

/-- Decidable check that no character of any literal token lowers to a
comma; it makes `runToks` blind to a comma-headed extension of the text. -/
def litCharsOk : List RTok → Bool
  | [] => true
  | .lit u :: ts => u.all (fun a => !(a.toLower = ',')) && litCharsOk ts
  | .pdot _ :: ts => litCharsOk ts
  | .pws _ :: ts => litCharsOk ts

/-! ## Claim C2: strategy 1 (direct address) -/

/-- C2: for a forward record with a non-empty `apparent_address` on which
the forward geocoder succeeds for the normalized query, `geocode_row`
returns the strategy-1 resolved outcome (tag `nominatim_address`, the
script's name for the spec's `direct_address`): coordinates from the fix,
`street_address` equal to the original un-normalized `apparent_address`
(the normalized form appears only in the query), and the provider display
name (truncated to 80 characters, per the provenance format) as the
evidence part of `notes`. -/
theorem geocode_row_direct_address (nom : String → Option GeoFix) (ddgAvail : Bool)
    (ddgFetch : String → Option (List Snippet)) (business_name apparent_address : String)
    (f : GeoFix) (hne : apparent_address ≠ "")
    (hnom : nom (ensure_nola apparent_address) = some f) :
    geocode_row nom ddgAvail ddgFetch business_name apparent_address =
      ⟨f.lat, f.lon, apparent_address,
        "geocoded:nominatim_address | " ++ f.display.take 80⟩ := by
  simp [geocode_row, hne, hnom]

/-- Witness for C2, at the spec's scenario row `("Corner Store", "100 Canal
St")` with a stub geocoder keyed on the normalized query. -/
theorem geocode_row_direct_address_witness :
    geocode_row
      (fun q => if q = ensure_nola "100 Canal St" then
        some ⟨"29.9527", "-90.0686", "100 Canal St, New Orleans, LA"⟩ else none)
      true (fun _ => none) "Corner Store" "100 Canal St" =
      ⟨"29.9527", "-90.0686", "100 Canal St",
        "geocoded:nominatim_address | " ++ ("100 Canal St, New Orleans, LA" : String).take 80⟩ :=
  geocode_row_direct_address _ true _ "Corner Store" "100 Canal St"
    ⟨"29.9527", "-90.0686", "100 Canal St, New Orleans, LA"⟩ (by decide) (by simp)

/-! ## Claim C6: reverse street-address synthesis -/

/-- C6: a successful reverse lookup synthesizes `street_address` as the
house number joined (with a space, then stripped) to the road when both
are present, the road alone when the house number is absent, and the empty
string when no road is returned. -/
theorem reverse_geocode_street_synthesis (r : RevResponse) (hok : r.errorFlag = false) :
    (r.road ≠ "" → r.house_number ≠ "" →
      reverse_geocode (some r) =
        some (pyStrip (r.house_number ++ " " ++ r.road), r.display_name)) ∧
    (r.road ≠ "" → r.house_number = "" →
      reverse_geocode (some r) = some (r.road, r.display_name)) ∧
    (r.road = "" → reverse_geocode (some r) = some ("", r.display_name)) := by
  refine ⟨fun hr hh => ?_, fun hr hh => ?_, fun hr => ?_⟩
  · simp [reverse_geocode, hok, hr, hh]
  · simp [reverse_geocode, hok, hr, hh]
  · simp [reverse_geocode, hok, hr]

/-- Witness for C6: the spec's stub scenario `{house_number: "", road:
"Canal St"}` yields `street_address = "Canal St"` (the coordinates
`(29.9511, -90.0715)` only parameterize the request, not the response). -/
theorem reverse_geocode_street_synthesis_witness :
    reverse_geocode (some ⟨false, "", "Canal St", "Canal St, New Orleans"⟩) =
      some ("Canal St", "Canal St, New Orleans") :=
  (reverse_geocode_street_synthesis ⟨false, "", "Canal St", "Canal St, New Orleans"⟩
    rfl).2.1 (by decide) rfl

/-! ## Claim C9: input row parsing -/

/-- C9 counterexample: a row whose cells are only whitespace and commas is
not necessarily skipped.  With cells `("", ", ,")` the address cell
strip/comma-rstrip/strip pipeline leaves `","`, so the row is kept (and
`","` becomes its apparent address), contradicting the claim that such a
row is treated as empty. -/
theorem parseRow_comma_whitespace_counterexample :
    parseRow ["", ", ,"] = some ("", ",") := by decide

/-- C9 amended: the business cell is whitespace-stripped and the apparent
address is the raw cell put through strip, then rstrip of commas, then
strip; a row is skipped exactly when both of those results are empty
(cells whose strip/comma-rstrip/strip residue is non-empty — such as a
comma between whitespace — do not count as empty). -/
theorem parseRow_spec (line : List String) :
    (parseRow line = none ↔
      pyStrip (line.getD 0 "") = "" ∧
      pyStrip (rstripCommas (pyStrip (line.getD 1 ""))) = "") ∧
    (∀ bn aa, parseRow line = some (bn, aa) →
      bn = pyStrip (line.getD 0 "") ∧
      aa = pyStrip (rstripCommas (pyStrip (line.getD 1 "")))) := by
  have h0 : (if line.length < 2 then line ++ List.replicate (2 - line.length) "" else line).getD 0 ""
      = line.getD 0 "" := by
    rcases line with _ | ⟨a, _ | ⟨b, l⟩⟩ <;> simp
  have h1 : (if line.length < 2 then line ++ List.replicate (2 - line.length) "" else line).getD 1 ""
      = line.getD 1 "" := by
    rcases line with _ | ⟨a, _ | ⟨b, l⟩⟩ <;> simp
  simp only [parseRow, h0, h1]
  by_cases hc : pyStrip (line.getD 0 "") = "" ∧ pyStrip (rstripCommas (pyStrip (line.getD 1 ""))) = ""
  · simp [hc]
  · constructor
    · simp [hc]
    · intro bn aa h
      rw [if_neg hc] at h
      obtain ⟨h1, h2⟩ := Prod.mk.injEq .. ▸ Option.some.injEq .. ▸ h
      exact ⟨h1.symm, h2.symm⟩

/-- Witness for C9's amended claim, at the row
`["Corner Store", " 100 Canal St,, "]`. -/
theorem parseRow_spec_witness :
    ("Corner Store" : String) = pyStrip ((["Corner Store", " 100 Canal St,, "] : List String).getD 0 "") ∧
    ("100 Canal St" : String) =
      pyStrip (rstripCommas (pyStrip ((["Corner Store", " 100 Canal St,, "] : List String).getD 1 ""))) :=
  (parseRow_spec ["Corner Store", " 100 Canal St,, "]).2 "Corner Store" "100 Canal St" (by decide)

/-! ## Claim C4: fatal conditions -/

/-- C4 counterexample: with the input file present and readable, a missing
required `requests` dependency still terminates the run with a non-zero
exit, so a missing input file is not the only fatal condition. -/
theorem looseRun_missing_dependency_counterexample :
    looseRun false (some [["shop", "address"], ["Corner Store", "100 Canal St"]])
        (fun _ => none) false (fun _ => none) = .error 1 ∧
    (some [["shop", "address"], ["Corner Store", "100 Canal St"]] :
        Option (List (List String))) ≠ none :=
  ⟨rfl, by simp⟩

/-- C4 amended: the forward run terminates with a non-zero exit exactly
when the required `requests` dependency is missing, the input file is
missing/unreadable, or the input file is completely empty (no header line,
making `next(reader)` raise an uncaught `StopIteration`).  Every other
failure — transport errors, provider errors, missing optional web-search
dependency, unresolvable records (all quantified here through the `nom`,
`ddgAvail`, `ddgFetch` stubs) — leaves the run alive. -/
theorem looseRun_fatal_iff (requestsAvail : Bool) (input : Option (List (List String)))
    (nom : String → Option GeoFix) (ddgAvail : Bool)
    (ddgFetch : String → Option (List Snippet)) :
    (∃ e, looseRun requestsAvail input nom ddgAvail ddgFetch = .error e) ↔
      requestsAvail = false ∨ input = none ∨ input = some [] := by
  cases requestsAvail
  · simp [looseRun]
  · rcases input with _ | ⟨_ | ⟨hd, tl⟩⟩ <;> simp [looseRun]

/-- Witness for C4's amended claim: a missing dependency is fatal even
with a well-formed input present. -/
theorem looseRun_fatal_iff_witness :
    ∃ e, looseRun false (some [["shop", "address"], ["Corner Store", "100 Canal St"]])
        (fun _ => none) true (fun _ => none) = .error e :=
  (looseRun_fatal_iff false (some [["shop", "address"], ["Corner Store", "100 Canal St"]])
    (fun _ => none) true (fun _ => none)).mpr (Or.inl rfl)

/-! ## Claim C7: the web-search fallback -/

/-- Scanning snippets on which the address pattern finds nothing yields no
candidate. -/
theorem firstAddr_none (l : List Snippet)
    (h : ∀ sn ∈ l, addrSearch (snippetText sn).data = none) :
    firstAddr l = none := by
  induction l with
  | nil => rfl
  | cons sn rest ih =>
    simp [firstAddr, h sn (by simp)]
    exact ih (fun s hs => h s (by simp [hs]))

/-- The first snippet with an address-pattern match determines the
result. -/
theorem firstAddr_first_match (l1 : List Snippet) (sn : Snippet) (l2 : List Snippet)
    (m : List Char)
    (h1 : ∀ s ∈ l1, addrSearch (snippetText s).data = none)
    (h2 : addrSearch (snippetText sn).data = some m) :
    firstAddr (l1 ++ sn :: l2) = some (pyStrip ⟨m⟩) := by
  induction l1 with
  | nil => simp [firstAddr, h2]
  | cons a rest ih =>
    simp [firstAddr, h1 a (by simp)]
    exact ih (fun s hs => h1 s (by simp [hs]))

/-- C7: the web-search fallback returns the first address-pattern match
found while scanning up to five result snippets in result order, and
returns `none` when no scanned snippet matches, when the result list is
empty (covered by the no-match clause with an empty list), when the
provider errors (`fetch` returns `none`), or — for every call, without
aborting — when the web-search dependency is unavailable. -/
theorem ddg_find_address_spec (fetch : String → Option (List Snippet))
    (business_name : String) :
    (∀ f bn, ddg_find_address false f bn = none) ∧
    (fetch (business_name ++ " New Orleans address") = none →
      ddg_find_address true fetch business_name = none) ∧
    (∀ rs, fetch (business_name ++ " New Orleans address") = some rs →
      ((∀ sn ∈ rs.take 5, addrSearch (snippetText sn).data = none) →
        ddg_find_address true fetch business_name = none) ∧
      (∀ l1 sn l2 m, rs.take 5 = l1 ++ sn :: l2 →
        (∀ s ∈ l1, addrSearch (snippetText s).data = none) →
        addrSearch (snippetText sn).data = some m →
        ddg_find_address true fetch business_name = some (pyStrip ⟨m⟩))) := by
  refine ⟨fun f bn => rfl, fun h => by simp [ddg_find_address, h], fun rs hrs => ⟨fun h => ?_, ?_⟩⟩
  · simp [ddg_find_address, hrs]
    exact firstAddr_none _ h
  · intro l1 sn l2 m hsplit hnone hm
    simp [ddg_find_address, hrs, hsplit]
    exact hsplit ▸ firstAddr_first_match l1 sn l2 m hnone hm

/-- Witness for C7: a stubbed result list whose single snippet contains an
address; the fallback extracts it. -/
theorem ddg_find_address_spec_witness :
    ddg_find_address true
      (fun q => if q = "Corner Store New Orleans address" then
        some [⟨"Corner Store NOLA", "Visit us at 600 Decatur St today"⟩] else none)
      "Corner Store" = some (pyStrip ⟨"600 Decatur St".data⟩) :=
  ((ddg_find_address_spec
      (fun q => if q = "Corner Store New Orleans address" then
        some [⟨"Corner Store NOLA", "Visit us at 600 Decatur St today"⟩] else none)
      "Corner Store").2.2
    [⟨"Corner Store NOLA", "Visit us at 600 Decatur St today"⟩] (by simp)).2
    [] ⟨"Corner Store NOLA", "Visit us at 600 Decatur St today"⟩ [] "600 Decatur St".data
    (by decide) (by simp) (by decide)

/-! ## Claim C10: constant fields of resolved forward rows -/

/-- The result-building loop is a map over the parsed rows. -/
theorem looseProcess_eq_map (nom : String → Option GeoFix) (ddgAvail : Bool)
    (ddgFetch : String → Option (List Snippet)) (rows : List (String × String)) :
    looseProcess nom ddgAvail ddgFetch rows =
      rows.map (fun row => looseRecord row.1 (geocode_row nom ddgAvail ddgFetch row.1 row.2)) := by
  have key : ∀ (rs : List (String × String)) (init : List LooseRecord),
      rs.foldl (fun acc row =>
        acc ++ [looseRecord row.1 (geocode_row nom ddgAvail ddgFetch row.1 row.2)]) init =
      init ++ rs.map (fun row => looseRecord row.1 (geocode_row nom ddgAvail ddgFetch row.1 row.2)) := by
    intro rs
    induction rs with
    | nil => intro init; simp
    | cons r rest ih => intro init; simp [ih]
  simpa [looseProcess] using key rows []

/-- C10: every row of the forward pipeline's resolved output has status
`"pending"`, facial_recognition `"False"`, associated_shop equal to the
record's business name, and empty id, cross_road, reported_by,
reported_at, vetted_at and vetted_by. -/
theorem looseResolved_constant_fields (nom : String → Option GeoFix) (ddgAvail : Bool)
    (ddgFetch : String → Option (List Snippet)) (rows : List (String × String))
    (r : LooseRecord)
    (hr : r ∈ looseResolved (looseProcess nom ddgAvail ddgFetch rows)) :
    r.status = "pending" ∧ r.facial_recognition = "False" ∧ r.id = "" ∧
    r.cross_road = "" ∧ r.reported_by = "" ∧ r.reported_at = "" ∧
    r.vetted_at = "" ∧ r.vetted_by = "" ∧
    ∃ row ∈ rows, r.associated_shop = row.1 := by
  have hmem : r ∈ looseProcess nom ddgAvail ddgFetch rows := (List.mem_filter.mp hr).1
  rw [looseProcess_eq_map] at hmem
  obtain ⟨row, hrow, rfl⟩ := List.mem_map.mp hmem
  exact ⟨rfl, rfl, rfl, rfl, rfl, rfl, rfl, rfl, row, hrow, rfl⟩

set_option maxRecDepth 4000 in
/-- Witness for C10, with a constant-success geocoder stub resolving the
single row `("Corner Store", "")` through strategy 2. -/
theorem looseResolved_constant_fields_witness :
    (looseRecord "Corner Store" ⟨"29.9527", "-90.0686", "", "geocoded:nominatim_name | D"⟩).status = "pending" ∧
    (looseRecord "Corner Store" ⟨"29.9527", "-90.0686", "", "geocoded:nominatim_name | D"⟩).facial_recognition = "False" ∧
    (looseRecord "Corner Store" ⟨"29.9527", "-90.0686", "", "geocoded:nominatim_name | D"⟩).id = "" ∧
    (looseRecord "Corner Store" ⟨"29.9527", "-90.0686", "", "geocoded:nominatim_name | D"⟩).cross_road = "" ∧
    (looseRecord "Corner Store" ⟨"29.9527", "-90.0686", "", "geocoded:nominatim_name | D"⟩).reported_by = "" ∧
    (looseRecord "Corner Store" ⟨"29.9527", "-90.0686", "", "geocoded:nominatim_name | D"⟩).reported_at = "" ∧
    (looseRecord "Corner Store" ⟨"29.9527", "-90.0686", "", "geocoded:nominatim_name | D"⟩).vetted_at = "" ∧
    (looseRecord "Corner Store" ⟨"29.9527", "-90.0686", "", "geocoded:nominatim_name | D"⟩).vetted_by = "" ∧
    ∃ row ∈ ([("Corner Store", "")] : List (String × String)),
      (looseRecord "Corner Store" ⟨"29.9527", "-90.0686", "", "geocoded:nominatim_name | D"⟩).associated_shop = row.1 :=
  looseResolved_constant_fields (fun _ => some ⟨"29.9527", "-90.0686", "D"⟩) false
    (fun _ => none) [("Corner Store", "")] _ (by decide)

/-! ## Shared outcome analysis of `geocode_row` -/

/-- Strings with different first characters are different. -/
theorem ne_of_head_chars (s t : String) (c d : Char) (hs : s.data.head? = some c)
    (ht : t.data.head? = some d) (hcd : c ≠ d) : s ≠ t := by
  intro he
  rw [he, ht] at hs
  exact hcd (Option.some.inj hs).symm

/-- Every run of the strategy chain ends in one of its four return
statements: a resolved outcome whose coordinates come from a successful
geocoder call and whose notes carry one of the three strategy tags, or the
unresolved outcome. -/
theorem geocode_row_cases (nom : String → Option GeoFix) (dA : Bool)
    (dF : String → Option (List Snippet)) (bn aa : String) :
    (∃ f st note q, nom q = some f ∧
      (note = "geocoded:nominatim_address | " ++ f.display.take 80 ∨
       note = "geocoded:nominatim_name | " ++ f.display.take 80 ∨
       note = "geocoded:ddg_fallback | " ++ f.display.take 80) ∧
      geocode_row nom dA dF bn aa = ⟨f.lat, f.lon, st, note⟩) ∨
    geocode_row nom dA dF bn aa = ⟨"", "", aa, unresolvedNotes⟩ := by
  unfold geocode_row
  by_cases haa : aa ≠ ""
  · rcases h1 : nom (ensure_nola aa) with _ | f
    · by_cases hbn : bn ≠ ""
      · rcases h2 : nom (bn ++ ", New Orleans, Louisiana") with _ | f
        · rcases h3 : ddg_find_address dA dF bn with _ | addr
          · simp only [if_pos haa, if_pos hbn, h1, h2, h3]
            exact Or.inr rfl
          · rcases h4 : nom (ensure_nola addr) with _ | f
            · simp only [if_pos haa, if_pos hbn, h1, h2, h3, h4]
              exact Or.inr rfl
            · simp only [if_pos haa, if_pos hbn, h1, h2, h3, h4]
              exact Or.inl ⟨f, addr, _, _, h4, Or.inr (Or.inr rfl), rfl⟩
        · simp only [if_pos haa, if_pos hbn, h1, h2]
          exact Or.inl ⟨f, aa, _, _, h2, Or.inr (Or.inl rfl), rfl⟩
      · simp only [if_pos haa, if_neg hbn, h1]
        exact Or.inr rfl
    · simp only [if_pos haa, h1]
      exact Or.inl ⟨f, aa, _, _, h1, Or.inl rfl, rfl⟩
  · by_cases hbn : bn ≠ ""
    · rcases h2 : nom (bn ++ ", New Orleans, Louisiana") with _ | f
      · rcases h3 : ddg_find_address dA dF bn with _ | addr
        · simp only [if_neg haa, if_pos hbn, h2, h3]
          exact Or.inr rfl
        · rcases h4 : nom (ensure_nola addr) with _ | f
          · simp only [if_neg haa, if_pos hbn, h2, h3, h4]
            exact Or.inr rfl
          · simp only [if_neg haa, if_pos hbn, h2, h3, h4]
            exact Or.inl ⟨f, addr, _, _, h4, Or.inr (Or.inr rfl), rfl⟩
      · simp only [if_neg haa, if_pos hbn, h2]
        exact Or.inl ⟨f, aa, _, _, h2, Or.inr (Or.inl rfl), rfl⟩
    · simp only [if_neg haa, if_neg hbn]
      exact Or.inr rfl

/-- A string starting with a `g`-headed prefix is not the unresolved notes
string (which starts with `U`). -/
theorem geocoded_pre_ne (pre x : String) (hp : pre.data.head? = some 'g') :
    (pre ++ x) ≠ unresolvedNotes := by
  apply ne_of_head_chars (pre ++ x) unresolvedNotes 'g' 'U' ?_ rfl (by decide)
  rw [show (pre ++ x).data = pre.data ++ x.data from rfl]
  cases hd : pre.data with
  | nil => rw [hd] at hp; cases hp
  | cons a l =>
    rw [hd] at hp
    simpa using hp

/-- A resolved notes string never equals the unresolved notes string. -/
theorem geocoded_note_ne_unresolved (f : GeoFix) (note : String)
    (h : note = "geocoded:nominatim_address | " ++ f.display.take 80 ∨
         note = "geocoded:nominatim_name | " ++ f.display.take 80 ∨
         note = "geocoded:ddg_fallback | " ++ f.display.take 80) :
    note ≠ unresolvedNotes := by
  rcases h with h | h | h <;> rw [h] <;> exact geocoded_pre_ne _ _ rfl

/-! ## Claim C3: unresolved latitude/longitude -/

/-- C3 counterexample: in the reverse pipeline, the record written for a
failed reverse lookup keeps the input coordinates in its latitude and
longitude fields; they are not empty strings. -/
theorem nopd_unresolved_latlon_counterexample :
    (nopdProcess (fun _ => none) [("29.9511", "-90.0715")]).1 =
      [nopdUnresolvedRecord "29.9511" "-90.0715"] ∧
    (nopdUnresolvedRecord "29.9511" "-90.0715").notes = "UNRESOLVED: reverse geocoding failed" ∧
    (nopdUnresolvedRecord "29.9511" "-90.0715").latitude = "29.9511" ∧
    (nopdUnresolvedRecord "29.9511" "-90.0715").latitude ≠ "" := by
  decide

/-- C3 amended: in the forward pipeline an unresolved record is written
with empty latitude and longitude, while in the reverse pipeline an
unresolved record is written with the input coordinates as its latitude
and longitude. -/
theorem unresolved_latlon_spec (nom : String → Option GeoFix) (dA : Bool)
    (dF : String → Option (List Snippet)) (bn aa : String)
    (rev : String × String → Option RevResponse) (lat lon : String)
    (hrev : rev (lat, lon) = none) :
    ((geocode_row nom dA dF bn aa).notes = unresolvedNotes →
      (geocode_row nom dA dF bn aa).latitude = "" ∧
      (geocode_row nom dA dF bn aa).longitude = "") ∧
    (nopdStep rev ([], []) (lat, lon)).1 = [nopdUnresolvedRecord lat lon] ∧
    (nopdUnresolvedRecord lat lon).latitude = lat ∧
    (nopdUnresolvedRecord lat lon).longitude = lon := by
  refine ⟨fun h => ?_, ?_, rfl, rfl⟩
  · rcases geocode_row_cases nom dA dF bn aa with ⟨f, st, note, q, _, hnote, heq⟩ | heq
    · rw [heq] at h
      exact absurd h (geocoded_note_ne_unresolved f note hnote)
    · rw [heq]
      exact ⟨rfl, rfl⟩
  · simp [nopdStep, reverse_geocode, hrev]

/-- Witness for C3's amended claim, with a failing reverse stub at
`("29.9511", "-90.0715")` and an always-failing forward geocoder. -/
theorem unresolved_latlon_spec_witness :
    ((geocode_row (fun _ => none) false (fun _ => none) "Corner Store" "x").notes = unresolvedNotes →
      (geocode_row (fun _ => none) false (fun _ => none) "Corner Store" "x").latitude = "" ∧
      (geocode_row (fun _ => none) false (fun _ => none) "Corner Store" "x").longitude = "") ∧
    (nopdStep (fun _ => none) ([], []) ("29.9511", "-90.0715")).1 =
      [nopdUnresolvedRecord "29.9511" "-90.0715"] ∧
    (nopdUnresolvedRecord "29.9511" "-90.0715").latitude = "29.9511" ∧
    (nopdUnresolvedRecord "29.9511" "-90.0715").longitude = "-90.0715" :=
  unresolved_latlon_spec (fun _ => none) false (fun _ => none) "Corner Store" "x"
    (fun _ => none) "29.9511" "-90.0715" rfl

/-! ## Claim C1: output partitioning -/

/-- C1 counterexample: the reverse pipeline has no separate unresolved
output destination — a record whose outcome is unresolved is written to
the same single output CSV as the resolved records, so membership in the
written destinations is not a partition by outcome. -/
theorem nopd_single_destination_counterexample :
    (nopdProcess
        (fun c => if c.1 = "29.9511" then none else some ⟨false, "", "Canal St", "disp"⟩)
        [("29.9511", "-90.0715"), ("29.9527", "-90.0686")]).1 =
      [nopdUnresolvedRecord "29.9511" "-90.0715",
       nopdResolvedRecord "29.9527" "-90.0686" "Canal St" "disp"] ∧
    (nopdUnresolvedRecord "29.9511" "-90.0715").notes = "UNRESOLVED: reverse geocoding failed" ∧
    (nopdResolvedRecord "29.9527" "-90.0686" "Canal St" "disp").notes ≠
      (nopdUnresolvedRecord "29.9511" "-90.0715").notes := by
  decide

/-- The resolved/unresolved filters partition the result list. -/
theorem loose_partition_length (l : List LooseRecord) :
    (looseResolved l).length + (looseUnresolved l).length = l.length := by
  induction l with
  | nil => rfl
  | cons r rest ih =>
    by_cases h : r.latitude = "" <;>
      simp [looseResolved, looseUnresolved, List.filter_cons, h] at * <;> omega

/-- The reverse loop writes exactly one record per coordinate row to its
single output. -/
theorem nopdProcess_fst_length (rev : String × String → Option RevResponse)
    (coords : List (String × String)) :
    (nopdProcess rev coords).1.length = coords.length := by
  have key : ∀ (cs : List (String × String)) (acc : List NopdRecord × List (String × String)),
      ((cs.foldl (nopdStep rev) acc).1).length = acc.1.length + cs.length := by
    intro cs
    induction cs with
    | nil => intro acc; simp
    | cons c rest ih =>
      intro acc
      rw [List.foldl_cons, ih]
      unfold nopdStep
      cases reverse_geocode (rev c) <;> simp <;> omega
  simpa [nopdProcess] using key coords ([], [])

/-- C1 amended: in the forward pipeline, every processed record yields
exactly one output record, the resolved and unresolved sets are the two
complementary filters of the result list (so each record lands in exactly
one of the two destinations, determined by its outcome: empty latitude iff
the unresolved notes); in the reverse pipeline every processed record
yields exactly one output record, but all of them — resolved or not — are
written to the single output destination.  The hypothesis `hlat` records
that a rendered Python float is never the empty string. -/
theorem batch_partition_spec (nom : String → Option GeoFix) (dA : Bool)
    (dF : String → Option (List Snippet)) (rows : List (String × String))
    (rev : String × String → Option RevResponse) (coords : List (String × String))
    (hlat : ∀ q f, nom q = some f → f.lat ≠ "") :
    (looseProcess nom dA dF rows).length = rows.length ∧
    (∀ r ∈ looseProcess nom dA dF rows,
      (r ∈ looseResolved (looseProcess nom dA dF rows) ↔ r.latitude ≠ "") ∧
      (r ∈ looseUnresolved (looseProcess nom dA dF rows) ↔ r.latitude = "") ∧
      (r.latitude = "" ↔ r.notes = unresolvedNotes)) ∧
    (looseResolved (looseProcess nom dA dF rows)).length +
      (looseUnresolved (looseProcess nom dA dF rows)).length =
      (looseProcess nom dA dF rows).length ∧
    (nopdProcess rev coords).1.length = coords.length := by
  refine ⟨?_, ?_, loose_partition_length _, nopdProcess_fst_length rev coords⟩
  · rw [looseProcess_eq_map]
    exact List.length_map _ _
  · intro r hr
    refine ⟨?_, ?_, ?_⟩
    · simp [looseResolved, List.mem_filter, hr]
    · simp [looseUnresolved, List.mem_filter, hr]
    · rw [looseProcess_eq_map] at hr
      obtain ⟨row, _, rfl⟩ := List.mem_map.mp hr
      rcases geocode_row_cases nom dA dF row.1 row.2 with ⟨f, st, note, q, hq, hnote, heq⟩ | heq
      · rw [heq]
        exact iff_of_false (hlat q f hq) (geocoded_note_ne_unresolved f note hnote)
      · rw [heq]
        exact iff_of_true rfl rfl

/-- Witness for C1's amended claim: one forward row resolved by a constant
stub and one reverse coordinate whose lookup fails. -/
theorem batch_partition_spec_witness :
    (looseProcess (fun _ => some ⟨"29.9527", "-90.0686", "D"⟩) false (fun _ => none)
        [("Corner Store", "")]).length = ([("Corner Store", "")] : List (String × String)).length ∧
    (∀ r ∈ looseProcess (fun _ => some ⟨"29.9527", "-90.0686", "D"⟩) false (fun _ => none)
        [("Corner Store", "")],
      (r ∈ looseResolved (looseProcess (fun _ => some ⟨"29.9527", "-90.0686", "D"⟩) false
          (fun _ => none) [("Corner Store", "")]) ↔ r.latitude ≠ "") ∧
      (r ∈ looseUnresolved (looseProcess (fun _ => some ⟨"29.9527", "-90.0686", "D"⟩) false
          (fun _ => none) [("Corner Store", "")]) ↔ r.latitude = "") ∧
      (r.latitude = "" ↔ r.notes = unresolvedNotes)) ∧
    (looseResolved (looseProcess (fun _ => some ⟨"29.9527", "-90.0686", "D"⟩) false
        (fun _ => none) [("Corner Store", "")])).length +
      (looseUnresolved (looseProcess (fun _ => some ⟨"29.9527", "-90.0686", "D"⟩) false
        (fun _ => none) [("Corner Store", "")])).length =
      (looseProcess (fun _ => some ⟨"29.9527", "-90.0686", "D"⟩) false (fun _ => none)
        [("Corner Store", "")]).length ∧
    (nopdProcess (fun _ => none) [("29.9511", "-90.0715")]).1.length =
      ([("29.9511", "-90.0715")] : List (String × String)).length :=
  batch_partition_spec (fun _ => some ⟨"29.9527", "-90.0686", "D"⟩) false (fun _ => none)
    [("Corner Store", "")] (fun _ => none) [("29.9511", "-90.0715")]
    (fun q f h => by
      rw [← Option.some.inj h]
      decide)

/-! ## Claim C8: shape of web-search-derived addresses -/

/-- Characters cannot be simultaneously Python whitespace and digits. -/
theorem digit_not_ws (c : Char) (h : c.isDigit = true) : isPyWs c = false := by
  by_contra hc
  have hws : isPyWs c = true := by simpa using hc
  simp only [isPyWs, Bool.or_eq_true, decide_eq_true_eq] at hws
  rcases hws with ((((rfl | rfl) | rfl) | rfl) | rfl) | rfl <;> exact absurd h (by decide)

/-- A character whose lowercase form is a letter is not whitespace. -/
theorem lower_letter_not_ws (c : Char) (h : isLetterC c.toLower = true) : isPyWs c = false := by
  by_contra hc
  have hws : isPyWs c = true := by simpa using hc
  simp only [isPyWs, Bool.or_eq_true, decide_eq_true_eq] at hws
  rcases hws with ((((rfl | rfl) | rfl) | rfl) | rfl) | rfl <;> exact absurd h (by decide)

/-- Every character of every suffix word is a letter. -/
theorem streetWords_chars : ∀ w ∈ streetWords, ∀ c ∈ w, isLetterC c = true := by
  decide

/-- The empty run is not a suffix word. -/
theorem streetWords_ne_nil : ([] : List Char) ∉ streetWords := by
  decide

/-- `str.strip` is the identity on strings with non-whitespace ends. -/
theorem stripChars_eq_self (l : List Char)
    (h1 : ∀ c, l.head? = some c → isPyWs c = false)
    (h2 : ∀ c, l.getLast? = some c → isPyWs c = false) : stripChars l = l := by
  unfold stripChars
  have d1 : l.dropWhile isPyWs = l := by
    cases l with
    | nil => rfl
    | cons a t => rw [List.dropWhile_cons_of_neg]; simp [h1 a rfl]
  rw [d1]
  have d2 : l.reverse.dropWhile isPyWs = l.reverse := by
    cases hr : l.reverse with
    | nil => rfl
    | cons a t =>
      rw [List.dropWhile_cons_of_neg]
      have ha : l.getLast? = some a := by
        rw [← List.head?_reverse, hr]; rfl
      simp [h2 a ha]
  rw [d2, List.reverse_reverse]

/-- Soundness of the greedy word-chain scan: a produced match either is the
remembered best or extends the consumed prefix and ends in a whitespace-
preceded suffix word. -/
theorem chainScan_sound (fuel : Nat) :
    ∀ (matched : List Char) (best : Option (List Char)) (cur out : List Char),
      chainScan fuel matched best cur = some out →
      best = some out ∨ (EndsWithStreet out ∧ ∃ e, out = matched ++ e) := by
  induction fuel with
  | zero => exact fun matched best cur out h => Or.inl h
  | succ fuel ih =>
    intro matched best cur out h
    simp only [chainScan] at h
    set ws := cur.takeWhile isPyWs with hws_def
    set cur1 := cur.drop ws.length
    set run := cur1.takeWhile isLetterC with hrun_def
    set cur2 := cur1.drop run.length
    by_cases hws : ws = []
    · rw [if_pos hws] at h; exact Or.inl h
    · rw [if_neg hws] at h
      by_cases hrun : run = []
      · rw [if_pos hrun] at h; exact Or.inl h
      · rw [if_neg hrun] at h
        have hbase :
            (if lowerChars run ∈ streetWords ∧ bndOk cur2 = true
              then some (matched ++ ws ++ run) else best) = some out →
            best = some out ∨ (EndsWithStreet out ∧ ∃ e, out = matched ++ e) := by
          intro hb
          by_cases hcond : lowerChars run ∈ streetWords ∧ bndOk cur2 = true
          · rw [if_pos hcond] at hb
            have hout : out = matched ++ ws ++ run := (Option.some.inj hb).symm
            refine Or.inr ⟨⟨matched, ws, run, hout, hws,
              fun c hc => List.mem_takeWhile_imp (hws_def ▸ hc), hcond.1⟩,
              ws ++ run, by rw [hout, List.append_assoc]⟩
          · rw [if_neg hcond] at hb
            exact Or.inl hb
        by_cases hlen : run.length ≥ 2
        · rw [if_pos hlen] at h
          rcases ih _ _ _ _ h with hb | ⟨hends, e, he⟩
          · exact hbase hb
          · exact Or.inr ⟨hends, ws ++ run ++ e, by rw [he]; simp [List.append_assoc]⟩
        · rw [if_neg hlen] at h
          exact hbase h

/-- Soundness of the whole `ADDR_RE` attempt at one position: a match
starts with one to five digits followed by whitespace and ends in a
whitespace-preceded suffix word. -/
theorem matchAddrAt_sound (s m : List Char) (h : matchAddrAt s = some m) :
    (∃ d c cs, m = d ++ c :: cs ∧ d ≠ [] ∧ d.length ≤ 5 ∧
      (∀ x ∈ d, x.isDigit = true) ∧ isPyWs c = true) ∧
    EndsWithStreet m := by
  simp only [matchAddrAt] at h
  set ds := s.takeWhile Char.isDigit with hds_def
  by_cases hd : ds = [] ∨ ds.length > 5
  · rw [if_pos hd] at h; cases h
  · rw [if_neg hd] at h
    set s1 := s.drop ds.length
    set ws1 := s1.takeWhile isPyWs with hws1_def
    by_cases hw : ws1 = []
    · rw [if_pos hw] at h; cases h
    · rw [if_neg hw] at h
      set comp := matchCompass (s1.drop ws1.length)
      set run := comp.2.takeWhile isLetterC
      by_cases hr : run.length < 2
      · rw [if_pos hr] at h; cases h
      · rw [if_neg hr] at h
        rcases chainScan_sound _ _ _ _ _ h with hb | ⟨hends, e, he⟩
        · cases hb
        · refine ⟨?_, hends⟩
          obtain ⟨c, t, hct⟩ : ∃ c t, ws1 = c :: t := by
            cases hws1 : ws1 with
            | nil => exact absurd hws1 hw
            | cons c t => exact ⟨c, t, rfl⟩
          push_neg at hd
          have hcw : isPyWs c = true := by
            refine List.mem_takeWhile_imp (l := s1) (p := isPyWs) ?_
            rw [← hws1_def, hct]
            exact List.mem_cons_self c t
          refine ⟨ds, c, t ++ (comp.1 ++ (run ++ e)), ?_, hd.1, by omega,
            fun x hx => List.mem_takeWhile_imp (p := Char.isDigit) (by rw [← hds_def]; exact hx),
            hcw⟩
          rw [he, hct]
          simp [List.append_assoc]

/-- Soundness of the leftmost search: a result is a match of `ADDR_RE` at
some position. -/
theorem searchAddrAux_sound : ∀ (s : List Char) (b : Bool) (m : List Char),
    searchAddrAux s b = some m → ∃ t, matchAddrAt t = some m := by
  intro s
  induction s with
  | nil => intro b m h; cases h
  | cons c cs ih =>
    intro b m h
    rw [searchAddrAux] at h
    cases b
    · rw [if_neg (by simp)] at h
      exact ih _ _ h
    · rw [if_pos rfl] at h
      rcases hm : matchAddrAt (c :: cs) with _ | m2
      · rw [hm] at h; exact ih _ _ h
      · rw [hm] at h
        exact ⟨c :: cs, by rw [hm, Option.some.inj h]⟩

/-- A candidate produced by the snippet scan is the stripped text of an
`ADDR_RE` match. -/
theorem firstAddr_sound : ∀ (l : List Snippet) (a : String), firstAddr l = some a →
    ∃ sn m, addrSearch (snippetText sn).data = some m ∧ a = pyStrip ⟨m⟩ := by
  intro l
  induction l with
  | nil => intro a h; cases h
  | cons sn rest ih =>
    intro a h
    rw [firstAddr] at h
    rcases hm : addrSearch (snippetText sn).data with _ | m
    · rw [hm] at h; exact ih _ h
    · rw [hm] at h
      exact ⟨sn, m, hm, (Option.some.inj h).symm⟩

/-- An `ADDR_RE` match is untouched by `str.strip`: it starts with a digit
and ends with a letter. -/
theorem match_strip_id (m : List Char)
    (hshape : ∃ d c cs, m = d ++ c :: cs ∧ d ≠ [] ∧ d.length ≤ 5 ∧
      (∀ x ∈ d, x.isDigit = true) ∧ isPyWs c = true)
    (hends : EndsWithStreet m) : pyStrip ⟨m⟩ = ⟨m⟩ := by
  obtain ⟨d, c, cs, hm, hdne, _, hdig, _⟩ := hshape
  obtain ⟨pre, ws, run, hm2, _, _, hmem⟩ := hends
  have hrun_ne : run ≠ [] := by
    intro hnil
    rw [hnil] at hmem
    exact streetWords_ne_nil hmem
  show (⟨stripChars m⟩ : String) = ⟨m⟩
  congr 1
  apply stripChars_eq_self
  · intro x hx
    obtain ⟨a, t, hat⟩ : ∃ a t, d = a :: t := by
      cases hd : d with
      | nil => exact absurd hd hdne
      | cons a t => exact ⟨a, t, rfl⟩
    rw [hm, hat] at hx
    have hax : a = x := by simpa using hx
    subst hax
    exact digit_not_ws a (hdig a (by rw [hat]; exact List.mem_cons_self a t))
  · intro x hx
    have hwr : ws ++ run ≠ [] := fun hh => hrun_ne (List.append_eq_nil.mp hh).2
    rw [hm2, List.append_assoc, List.getLast?_append_of_ne_nil _ hwr,
      List.getLast?_append_of_ne_nil _ hrun_ne] at hx
    have hxmem : x ∈ run := List.mem_of_mem_getLast? hx
    have hlow : x.toLower ∈ lowerChars run := List.mem_map_of_mem Char.toLower hxmem
    exact lower_letter_not_ws x (streetWords_chars _ hmem _ hlow)

/-- C8: every forward record resolved through the web-search fallback has
a street address of the locale address-pattern shape: it begins with a
one-to-five-digit house number followed by whitespace (with an optional
compass token after it) and ends with a recognized street-type suffix or
one of the fixed known local street names.  The hypotheses state exactly
that strategies 1 and 2 did not resolve the record and that the fallback
candidate geocoded successfully. -/
theorem geocode_row_web_fallback_shape (nom : String → Option GeoFix) (dA : Bool)
    (dF : String → Option (List Snippet)) (bn aa addr : String) (f : GeoFix)
    (h1 : aa = "" ∨ nom (ensure_nola aa) = none)
    (h2 : bn ≠ "")
    (h2b : nom (bn ++ ", New Orleans, Louisiana") = none)
    (h3 : ddg_find_address dA dF bn = some addr)
    (h4 : nom (ensure_nola addr) = some f) :
    (geocode_row nom dA dF bn aa).street_address = addr ∧ AddrShape addr := by
  have hstreet : geocode_row nom dA dF bn aa =
      ⟨f.lat, f.lon, addr, "geocoded:ddg_fallback | " ++ f.display.take 80⟩ := by
    rcases h1 with h1 | h1
    · subst h1
      simp [geocode_row, h2, h2b, h3, h4]
    · by_cases haa : aa = ""
      · subst haa
        simp [geocode_row, h2, h2b, h3, h4]
      · simp [geocode_row, haa, h1, h2, h2b, h3, h4]
  refine ⟨by rw [hstreet], ?_⟩
  have hdA : dA = true := by
    cases dA
    · rw [show ddg_find_address false dF bn = none from rfl] at h3; cases h3
    · rfl
  subst hdA
  rw [ddg_find_address] at h3
  rcases hfetch : dF (bn ++ " New Orleans address") with _ | rs
  · rw [if_neg (by simp), hfetch] at h3; cases h3
  · rw [if_neg (by simp), hfetch] at h3
    obtain ⟨sn, m, hsearch, haddr⟩ := firstAddr_sound _ _ h3
    obtain ⟨t, hmatch⟩ := searchAddrAux_sound _ _ _ hsearch
    obtain ⟨hshape, hends⟩ := matchAddrAt_sound _ _ hmatch
    have hid : pyStrip ⟨m⟩ = ⟨m⟩ := match_strip_id m hshape hends
    rw [haddr, hid]
    exact ⟨hshape, hends⟩

/-- Witness for C8: strategies 1 and 2 fail, the web snippet yields
`"600 Decatur St"`, which geocodes; the output street address has the
pattern shape. -/
theorem geocode_row_web_fallback_shape_witness :
    (geocode_row
        (fun q => if q = ensure_nola "600 Decatur St" then
          some ⟨"29.9567", "-90.0627", "600 Decatur St, New Orleans, LA"⟩ else none)
        true
        (fun q => if q = "Corner Store New Orleans address" then
          some [⟨"Corner Store NOLA", "Visit us at 600 Decatur St today"⟩] else none)
        "Corner Store" "").street_address = "600 Decatur St" ∧
    AddrShape "600 Decatur St" :=
  geocode_row_web_fallback_shape
    (fun q => if q = ensure_nola "600 Decatur St" then
      some ⟨"29.9567", "-90.0627", "600 Decatur St, New Orleans, LA"⟩ else none)
    true
    (fun q => if q = "Corner Store New Orleans address" then
      some [⟨"Corner Store NOLA", "Visit us at 600 Decatur St today"⟩] else none)
    "Corner Store" "" "600 Decatur St"
    ⟨"29.9567", "-90.0627", "600 Decatur St, New Orleans, LA"⟩
    (Or.inl rfl) (by decide) (by decide) (by decide) (by simp)

/-! ## Claim C5: idempotence of the Address Normalizer

Proof architecture: a full `re.sub` pass leaves no match of its own
pattern, and later passes create no match of earlier patterns; both are
instances of `bigStep` below, whose per-position transfer obligation is
`transGen`.  Appending the locality suffix also creates no match, and a
string without matches is a fixed point of a pass
(`subAuxF_of_noMatchTs`); the locality check is idempotent because the
appended suffix itself mentions the city. -/

/-- Dropping while a predicate holds is dropping the matched prefix. -/
theorem dropWhile_eq_drop_len (p : Char → Bool) (l : List Char) :
    l.dropWhile p = l.drop (l.takeWhile p).length := by
  induction l with
  | nil => rfl
  | cons a t ih =>
    by_cases h : p a
    · rw [List.dropWhile_cons_of_pos h, List.takeWhile_cons_of_pos h]
      simpa using ih
    · rw [List.dropWhile_cons_of_neg h, List.takeWhile_cons_of_neg h]
      rfl

/-- A matched literal is an exactly `w.length`-character prefix. -/
theorem stripCI_split : ∀ (w s r : List Char), stripCI w s = some r →
    ∃ u, s = u ++ r ∧ u.length = w.length := by
  intro w
  induction w with
  | nil =>
    intro s r h
    rw [stripCI] at h
    exact ⟨[], by simpa using Option.some.inj h, rfl⟩
  | cons a w ih =>
    intro s r h
    cases s with
    | nil => cases h
    | cons c cs =>
      rw [stripCI] at h
      by_cases hc : c.toLower = a.toLower
      · rw [if_pos hc] at h
        obtain ⟨u, hu, hl⟩ := ih cs r h
        exact ⟨c :: u, by rw [List.cons_append, ← hu], by simp [hl]⟩
      · rw [if_neg hc] at h; cases h

/-- A token-program match consumes a prefix. -/
theorem runToks_split : ∀ (ts : List RTok) (s r : List Char), runToks ts s = some r →
    ∃ u, s = u ++ r := by
  intro ts
  induction ts with
  | nil =>
    intro s r h
    rw [runToks] at h
    exact ⟨[], by simpa using Option.some.inj h⟩
  | cons t ts ih =>
    intro s r h
    cases t with
    | lit w =>
      rw [runToks] at h
      rcases hs : stripCI w s with _ | m
      · rw [hs] at h; cases h
      · rw [hs] at h
        obtain ⟨u1, hu1, _⟩ := stripCI_split w s m hs
        obtain ⟨u2, hu2⟩ := ih m r h
        exact ⟨u1 ++ u2, by rw [hu1, hu2, List.append_assoc]⟩
    | pdot req =>
      cases s with
      | nil =>
        rw [runToks] at h
        by_cases hreq : req
        · rw [if_pos hreq] at h; cases h
        · rw [if_neg hreq] at h
          obtain ⟨u, hu⟩ := ih [] r h
          exact ⟨u, hu⟩
      | cons c cs =>
        rw [runToks] at h
        by_cases hc : c = '.'
        · rw [if_pos hc] at h
          obtain ⟨u, hu⟩ := ih cs r h
          exact ⟨c :: u, by rw [hu, List.cons_append]⟩
        · rw [if_neg hc] at h
          by_cases hreq : req
          · rw [if_pos hreq] at h; cases h
          · rw [if_neg hreq] at h
            exact ih _ r h
    | pws one =>
      rw [runToks] at h
      by_cases hw : one ∧ s.takeWhile isPyWs = []
      · rw [if_pos hw] at h; cases h
      · rw [if_neg hw] at h
        obtain ⟨u, hu⟩ := ih _ r h
        refine ⟨s.takeWhile isPyWs ++ u, ?_⟩
        conv_lhs => rw [← List.takeWhile_append_dropWhile (p := isPyWs) (l := s)]
        rw [List.append_assoc, ← hu]
        congr 1
        exact dropWhile_eq_drop_len isPyWs s

/-- A pattern match consumes a non-empty prefix. -/
theorem mAt_split (p : Pat) (s r : List Char) (h : mAt p.toks s = some r) :
    ∃ u, s = u ++ r ∧ u ≠ [] := by
  rw [mAt] at h
  rcases hr : runToks p.toks s with _ | m
  · rw [hr] at h; cases h
  · rw [hr] at h
    dsimp only at h
    by_cases hb : bndOk m = true
    · rw [if_pos hb] at h
      obtain rfl : m = r := Option.some.inj h
      rw [Pat.toks, runToks] at hr
      rcases hs : stripCI (p.a :: p.w) s with _ | m1
      · rw [hs] at hr; cases hr
      · rw [hs] at hr
        obtain ⟨u1, hu1, hl1⟩ := stripCI_split _ _ _ hs
        obtain ⟨u2, hu2⟩ := runToks_split _ _ _ hr
        refine ⟨u1 ++ u2, by rw [hu1, hu2, List.append_assoc], ?_⟩
        intro hnil
        have : u1 = [] := by
          rcases List.append_eq_nil.mp hnil with ⟨h1, _⟩
          exact h1
        rw [this] at hl1
        simp at hl1
    · rw [if_neg hb] at h; cases h

/-- A pattern match strictly shortens the string. -/
theorem mAt_some_len (p : Pat) (s r : List Char) (h : mAt p.toks s = some r) :
    r.length < s.length := by
  obtain ⟨u, rfl, hne⟩ := mAt_split p s r h
  have : 0 < u.length := List.length_pos.mpr hne
  simp only [List.length_append]
  omega

/-- One-character step of the matcher on a non-empty literal. -/
theorem mAt_lit_cons (x : Char) (u : List Char) (r : List RTok) (c : Char) (z : List Char) :
    mAt (.lit (x :: u) :: r) (c :: z) =
      if c.toLower = x.toLower then mAt (.lit u :: r) z else none := by
  by_cases h : c.toLower = x.toLower
  · rw [if_pos h, mAt, mAt, runToks, runToks, stripCI, if_pos h]
  · rw [if_neg h, mAt, runToks, stripCI, if_neg h]

/-- An exhausted literal token pops. -/
theorem mAt_lit_nil (r : List RTok) (s : List Char) :
    mAt (.lit [] :: r) s = mAt r s := by
  rw [mAt, mAt, runToks, stripCI]

/-- One-character step of the matcher on the dot token. -/
theorem mAt_pdot_cons (d : Bool) (r : List RTok) (c : Char) (z : List Char) :
    mAt (.pdot d :: r) (c :: z) =
      if c = '.' then mAt r z else if d then none else mAt r (c :: z) := by
  by_cases hc : c = '.'
  · rw [if_pos hc, mAt, mAt, runToks, if_pos hc]
  · rw [if_neg hc, mAt, runToks, if_neg hc]
    by_cases hd : d
    · rw [if_pos hd, if_pos hd]
    · rw [if_neg hd, if_neg hd, mAt]

/-- One-character step of the matcher on the whitespace token. -/
theorem mAt_pws_cons (o : Bool) (r : List RTok) (c : Char) (z : List Char) :
    mAt (.pws o :: r) (c :: z) =
      if isPyWs c then mAt (.pws false :: r) z else if o then none else mAt r (c :: z) := by
  by_cases hc : isPyWs c
  · rw [if_pos hc, mAt, mAt, runToks, runToks]
    rw [List.takeWhile_cons_of_pos hc]
    simp only [List.cons_ne_self, and_false, if_false, List.length_cons,
      List.drop_succ_cons]
    have : ¬(false = true ∧ z.takeWhile isPyWs = []) := by simp
    rw [if_neg ?_]
    · rfl
    · simp
  · rw [if_neg hc, mAt, runToks, List.takeWhile_cons_of_neg hc]
    by_cases ho : o
    · subst ho
      rw [if_pos (by simp), if_pos rfl]
    · have ho' : o = false := by cases o; rfl; exact absurd rfl ho
      subst ho'
      rw [if_neg (by simp), if_neg (by simp), mAt]
      rfl

/-- The matcher at the empty state checks only the boundary. -/
theorem mAt_nil_cons (c : Char) (z : List Char) :
    mAt ([] : List RTok) (c :: z) = if isWordChar c then none else some (c :: z) := by
  rw [mAt, runToks]
  dsimp only
  cases hic : isWordChar c <;> simp [bndOk, hic]

/-- The scan of the empty string is empty for any fuel. -/
theorem subAuxF_nil (p : Pat) (repl : List Char) (fuel : Nat) (b : Bool) :
    subAuxF p repl fuel [] b = [] := by
  cases fuel <;> rfl

/-- Unfolding of the scan at a non-boundary position. -/
theorem subAuxF_cons_false (p : Pat) (repl : List Char) (fuel : Nat) (c : Char)
    (cs : List Char) :
    subAuxF p repl (fuel + 1) (c :: cs) false =
      c :: subAuxF p repl fuel cs (!isWordChar c) := by
  rw [subAuxF, if_neg (by simp)]

/-- Unfolding of the scan at a non-match position. -/
theorem subAuxF_cons_nomatch (p : Pat) (repl : List Char) (fuel : Nat) (c : Char)
    (cs : List Char) (b : Bool) (h : mAt p.toks (c :: cs) = none) :
    subAuxF p repl (fuel + 1) (c :: cs) b = c :: subAuxF p repl fuel cs (!isWordChar c) := by
  cases b
  · exact subAuxF_cons_false p repl fuel c cs
  · rw [subAuxF, if_pos rfl, h]

/-- Unfolding of the scan at a match site. -/
theorem subAuxF_cons_match (p : Pat) (repl : List Char) (fuel : Nat) (c : Char)
    (cs rest : List Char) (h : mAt p.toks (c :: cs) = some rest) :
    subAuxF p repl (fuel + 1) (c :: cs) true =
      repl ++ subAuxF p repl fuel rest (flagAfter repl true) := by
  rw [subAuxF, if_pos rfl, h]

/-- The scan result does not depend on the fuel once it covers the string
length. -/
theorem subAuxF_fuel_irrel (p : Pat) (repl : List Char) :
    ∀ (n fuel fuel' : Nat) (s : List Char) (b : Bool),
      s.length ≤ n → s.length ≤ fuel → s.length ≤ fuel' →
      subAuxF p repl fuel s b = subAuxF p repl fuel' s b := by
  intro n
  induction n with
  | zero =>
    intro fuel fuel' s b hn _ _
    cases s with
    | nil => rw [subAuxF_nil, subAuxF_nil]
    | cons c cs => simp at hn
  | succ n ih =>
    intro fuel fuel' s b hn hf hf'
    cases s with
    | nil => rw [subAuxF_nil, subAuxF_nil]
    | cons c cs =>
      simp only [List.length_cons] at hn hf hf'
      cases fuel with
      | zero => omega
      | succ fuel =>
        cases fuel' with
        | zero => omega
        | succ fuel' =>
          cases b
          · rw [subAuxF_cons_false, subAuxF_cons_false,
              ih fuel fuel' cs _ (by omega) (by omega) (by omega)]
          · rcases hm : mAt p.toks (c :: cs) with _ | rest
            · rw [subAuxF_cons_nomatch _ _ _ _ _ _ hm, subAuxF_cons_nomatch _ _ _ _ _ _ hm,
                ih fuel fuel' cs _ (by omega) (by omega) (by omega)]
            · have hlt := mAt_some_len p _ _ hm
              simp only [List.length_cons] at hlt
              rw [subAuxF_cons_match _ _ _ _ _ _ hm, subAuxF_cons_match _ _ _ _ _ _ hm,
                ih fuel fuel' rest _ (by omega) (by omega) (by omega)]

/-- A string without matches is a fixed point of the scan. -/
theorem subAuxF_of_noMatchTs (p : Pat) (repl : List Char) :
    ∀ (s : List Char) (b : Bool) (fuel : Nat), s.length ≤ fuel →
      noMatchTs p.toks s b = true → subAuxF p repl fuel s b = s := by
  intro s
  induction s with
  | nil => intro b fuel _ _; exact subAuxF_nil p repl fuel b
  | cons c cs ih =>
    intro b fuel hf hnm
    cases fuel with
    | zero => simp at hf
    | succ fuel =>
      rw [noMatchTs, Bool.and_eq_true] at hnm
      obtain ⟨h1, h2⟩ := hnm
      have hcs : cs.length ≤ fuel := by simp at hf; omega
      cases b
      · rw [subAuxF_cons_false, ih _ fuel hcs h2]
      · have hm : mAt p.toks (c :: cs) = none := by
          rcases hmm : mAt p.toks (c :: cs) with _ | r
          · rfl
          · rw [hmm] at h1; simp at h1
        rw [subAuxF_cons_nomatch _ _ _ _ _ _ hm, ih _ fuel hcs h2]

/-- The boundary flag after a non-empty emitted prefix depends on its last
character. -/
theorem flagAfter_cons (c : Char) (u : List Char) (b : Bool) :
    flagAfter (c :: u) b = flagAfter u (!isWordChar c) := by
  cases u with
  | nil => rfl
  | cons d t =>
    rw [flagAfter, flagAfter, List.getLast?_cons_cons]
    rcases hgl : (d :: t).getLast? with _ | x
    · exact absurd hgl (by simp)
    · rfl

/-- A match-free string is match-free from any suffix position. -/
theorem noMatchTs_suffix (ts : List RTok) :
    ∀ (u v : List Char) (b : Bool), noMatchTs ts (u ++ v) b = true →
      noMatchTs ts v (flagAfter u b) = true := by
  intro u
  induction u with
  | nil => intro v b h; exact h
  | cons c u ih =>
    intro v b h
    rw [List.cons_append, noMatchTs, Bool.and_eq_true] at h
    rw [flagAfter_cons]
    exact ih v (!isWordChar c) h.2

/-- Match-freeness at the strong flag gives match-freeness at any flag. -/
theorem noMatchTs_mono (ts : List RTok) (s : List Char)
    (h : noMatchTs ts s true = true) : ∀ b, noMatchTs ts s b = true := by
  intro b
  cases s with
  | nil => rfl
  | cons c cs =>
    rw [noMatchTs, Bool.and_eq_true] at h ⊢
    refine ⟨?_, h.2⟩
    cases b
    · simp
    · exact h.1

/-- The whole pattern is one of its own matcher states. -/
theorem stateOf_start (p : Pat) : stateOf p p.toks :=
  Or.inr (Or.inl ⟨p.a :: p.w, by simp, List.suffix_refl _, rfl⟩)

/-- Transfer lemma: a substitution pass creates no match of a pattern `pj`
at a position where none existed, provided every matcher state of `pj`
fails on replacement-headed text.  Strong induction on twice the string
length plus the state weight. -/
theorem transGen (ps : Pat) (repl : List Char) (pj : Pat) (hpj : patShape pj)
    (hrepl : ∀ ts, stateOf pj ts → ∀ X, mAt ts (repl ++ X) = none) :
    ∀ (n : Nat) (ts : List RTok) (s : List Char) (b : Bool) (fuel : Nat),
      2 * s.length + toksWeight ts ≤ n → s.length ≤ fuel → stateOf pj ts →
      mAt ts s = none → mAt ts (subAuxF ps repl fuel s b) = none := by
  intro n
  induction n using Nat.strong_induction_on with
  | _ n ih =>
  intro ts s b fuel hn hf hS hm
  cases s with
  | nil => rw [subAuxF_nil]; exact hm
  | cons c cs =>
    simp only [List.length_cons] at hn hf
    cases fuel with
    | zero => omega
    | succ fuel =>
      have hstep : mAt ts (c :: subAuxF ps repl fuel cs (!isWordChar c)) = none := by
        rcases hS with rfl | ⟨u, hune, husuf, rfl⟩ | ⟨d, w2, hrest, hcase⟩
        · rw [mAt_nil_cons] at hm ⊢
          by_cases hw : isWordChar c
          · rw [if_pos hw]
          · rw [if_neg hw] at hm; cases hm
        · obtain ⟨x, u', rfl⟩ : ∃ x u', u = x :: u' := by
            cases hu : u with
            | nil => exact absurd hu hune
            | cons x u' => exact ⟨x, u', rfl⟩
          rw [mAt_lit_cons] at hm ⊢
          by_cases hx : c.toLower = x.toLower
          · rw [if_pos hx] at hm ⊢
            cases u' with
            | nil =>
              rw [mAt_lit_nil] at hm ⊢
              have hSrest : stateOf pj pj.rest := by
                rcases hpj with h0 | ⟨d, w2, hw2, h0⟩
                · rw [h0]; exact Or.inl rfl
                · exact Or.inr (Or.inr ⟨d, w2, h0, Or.inl rfl⟩)
              exact ih (2 * cs.length + toksWeight pj.rest)
                (by simp [toksWeight, tokWeight] at hn ⊢; omega) _ cs _ fuel le_rfl
                (by omega) hSrest hm
            | cons y u'' =>
              have hSnext : stateOf pj (.lit (y :: u'') :: pj.rest) :=
                Or.inr (Or.inl ⟨y :: u'', by simp,
                  List.IsSuffix.trans (List.suffix_cons x (y :: u'')) husuf, rfl⟩)
              exact ih (2 * cs.length + toksWeight (.lit (y :: u'') :: pj.rest))
                (by simp [toksWeight, tokWeight] at hn ⊢; omega) _ cs _ fuel le_rfl
                (by omega) hSnext hm
          · rw [if_neg hx]
        · rcases hcase with rfl | rfl | rfl | ⟨u, hune, husuf, rfl⟩
          · rw [hrest] at hn hm ⊢
            rw [mAt_pdot_cons] at hm ⊢
            have hSnext : stateOf pj [RTok.pws true, RTok.lit w2] :=
              Or.inr (Or.inr ⟨d, w2, hrest, Or.inr (Or.inl rfl)⟩)
            by_cases hc : c = '.'
            · rw [if_pos hc] at hm ⊢
              exact ih (2 * cs.length + toksWeight [RTok.pws true, RTok.lit w2])
                (by simp [toksWeight, tokWeight] at hn ⊢; omega) _ cs _ fuel le_rfl
                (by omega) hSnext hm
            · rw [if_neg hc] at hm ⊢
              by_cases hd : d = true
              · rw [if_pos hd]
              · rw [if_neg hd] at hm ⊢
                have hout : c :: subAuxF ps repl fuel cs (!isWordChar c) =
                    subAuxF ps repl (fuel + 1) (c :: cs) false := by
                  rw [subAuxF_cons_false]
                rw [hout]
                exact ih (2 * (cs.length + 1) + toksWeight [RTok.pws true, RTok.lit w2])
                  (by simp [toksWeight, tokWeight] at hn ⊢; omega) _ (c :: cs) false (fuel + 1)
                  (by simp) (by simp; omega) hSnext hm
          · rw [mAt_pws_cons] at hm ⊢
            by_cases hc : isPyWs c
            · rw [if_pos hc] at hm ⊢
              have hSnext : stateOf pj [RTok.pws false, RTok.lit w2] :=
                Or.inr (Or.inr ⟨d, w2, hrest, Or.inr (Or.inr (Or.inl rfl))⟩)
              exact ih (2 * cs.length + toksWeight [RTok.pws false, RTok.lit w2])
                (by simp [toksWeight, tokWeight] at hn ⊢; omega) _ cs _ fuel le_rfl
                (by omega) hSnext hm
            · rw [if_neg hc, if_pos rfl] at hm ⊢
          · rw [mAt_pws_cons] at hm ⊢
            by_cases hc : isPyWs c
            · rw [if_pos hc] at hm ⊢
              have hSnext : stateOf pj [RTok.pws false, RTok.lit w2] :=
                Or.inr (Or.inr ⟨d, w2, hrest, Or.inr (Or.inr (Or.inl rfl))⟩)
              exact ih (2 * cs.length + toksWeight [RTok.pws false, RTok.lit w2])
                (by simp [toksWeight, tokWeight] at hn ⊢; omega) _ cs _ fuel le_rfl
                (by omega) hSnext hm
            · rw [if_neg hc, if_neg (by simp)] at hm ⊢
              have hw2ne : w2 ≠ [] := by
                rcases hpj with h0 | ⟨d', w2', hw2', h0⟩
                · rw [h0] at hrest; cases hrest
                · rw [h0] at hrest
                  have hw : w2' = w2 := by
                    injection hrest with h1 hrest2
                    injection hrest2 with h2 hrest3
                    injection hrest3 with h3 htl
                    injection h3 with hw
                  rw [← hw]
                  exact hw2'
              have hSnext : stateOf pj [RTok.lit w2] :=
                Or.inr (Or.inr ⟨d, w2, hrest, Or.inr (Or.inr (Or.inr
                  ⟨w2, hw2ne, List.suffix_refl _, rfl⟩))⟩)
              have hout : c :: subAuxF ps repl fuel cs (!isWordChar c) =
                  subAuxF ps repl (fuel + 1) (c :: cs) false := by
                rw [subAuxF_cons_false]
              rw [hout]
              exact ih (2 * (cs.length + 1) + toksWeight [RTok.lit w2])
                (by simp [toksWeight, tokWeight] at hn ⊢; omega) _ (c :: cs) false (fuel + 1)
                (by simp) (by simp; omega) hSnext hm
          · obtain ⟨x, u', rfl⟩ : ∃ x u', u = x :: u' := by
              cases hu : u with
              | nil => exact absurd hu hune
              | cons x u' => exact ⟨x, u', rfl⟩
            rw [mAt_lit_cons] at hm ⊢
            by_cases hx : c.toLower = x.toLower
            · rw [if_pos hx] at hm ⊢
              cases u' with
              | nil =>
                rw [mAt_lit_nil] at hm ⊢
                exact ih (2 * cs.length + toksWeight ([] : List RTok))
                  (by simp [toksWeight, tokWeight] at hn ⊢; omega) _ cs _ fuel le_rfl
                  (by omega) (Or.inl rfl) hm
              | cons y u'' =>
                have hSnext : stateOf pj [RTok.lit (y :: u'')] :=
                  Or.inr (Or.inr ⟨d, w2, hrest, Or.inr (Or.inr (Or.inr ⟨y :: u'', by simp,
                    List.IsSuffix.trans (List.suffix_cons x (y :: u'')) husuf, rfl⟩))⟩)
                exact ih (2 * cs.length + toksWeight [RTok.lit (y :: u'')])
                  (by simp [toksWeight, tokWeight] at hn ⊢; omega) _ cs _ fuel le_rfl
                  (by omega) hSnext hm
            · rw [if_neg hx]
      cases b
      · rw [subAuxF_cons_false]
        exact hstep
      · rcases hmm : mAt ps.toks (c :: cs) with _ | rest
        · rw [subAuxF_cons_nomatch _ _ _ _ _ _ hmm]
          exact hstep
        · rw [subAuxF_cons_match _ _ _ _ _ _ hmm]
          exact hrepl ts hS _

/-- A whitespace run that stops inside the string is unchanged by an
extension of the string. -/
theorem takeWhile_append_of_ne (p : Char → Bool) :
    ∀ (u v : List Char), u.takeWhile p ≠ u → (u ++ v).takeWhile p = u.takeWhile p := by
  intro u
  induction u with
  | nil => intro v h; exact absurd rfl h
  | cons c cs ih =>
    intro v h
    by_cases hc : p c
    · have h' : cs.takeWhile p ≠ cs := by
        intro hh
        exact h (by rw [List.takeWhile_cons_of_pos hc, hh])
      rw [List.cons_append, List.takeWhile_cons_of_pos hc, List.takeWhile_cons_of_pos hc,
        ih v h']
    · rw [List.cons_append, List.takeWhile_cons_of_neg hc, List.takeWhile_cons_of_neg hc]

/-- A whitespace run that swallows the whole string continues into the
extension. -/
theorem takeWhile_append_of_all (p : Char → Bool) :
    ∀ (u v : List Char), u.takeWhile p = u →
      (u ++ v).takeWhile p = u ++ v.takeWhile p := by
  intro u
  induction u with
  | nil => intro v _; rfl
  | cons c cs ih =>
    intro v h
    have hc : p c = true := by
      by_contra hcc
      rw [List.takeWhile_cons_of_neg (by simpa using hcc)] at h
      cases h
    have h' : cs.takeWhile p = cs := by
      rw [List.takeWhile_cons_of_pos hc] at h
      injection h
    rw [List.cons_append, List.takeWhile_cons_of_pos hc, ih v h', List.cons_append]

/-- The simulated literal matcher is sound: its definite verdicts on a
prefix hold for any extension of it. -/
theorem simStrip_sound (Z : List Char) :
    ∀ (w R : List Char),
      (∀ r, simStrip w R = .ok r → stripCI w (R ++ Z) = some (r ++ Z)) ∧
      (simStrip w R = .fail → stripCI w (R ++ Z) = none) := by
  intro w
  induction w with
  | nil =>
    intro R
    constructor
    · intro r h
      obtain rfl : R = r := by
        have : SimRes.ok R = SimRes.ok r := h
        injection this
      rfl
    · intro h; cases h
  | cons a w ih =>
    intro R
    cases R with
    | nil =>
      constructor
      · intro r h; cases h
      · intro h; cases h
    | cons c cs =>
      by_cases hc : c.toLower = a.toLower
      · constructor
        · intro r h
          rw [simStrip, if_pos hc] at h
          rw [List.cons_append, stripCI, if_pos hc]
          exact (ih cs).1 r h
        · intro h
          rw [simStrip, if_pos hc] at h
          rw [List.cons_append, stripCI, if_pos hc]
          exact (ih cs).2 h
      · constructor
        · intro r h
          rw [simStrip, if_neg hc] at h
          cases h
        · intro _
          rw [List.cons_append, stripCI, if_neg hc]

/-- The simulated token matcher is sound: a definite success or failure on
a prefix carries over to any extension of the prefix. -/
theorem simRun_sound (Z : List Char) :
    ∀ (ts : List RTok) (R : List Char),
      (∀ r, simRun ts R = .ok r → runToks ts (R ++ Z) = some (r ++ Z)) ∧
      (simRun ts R = .fail → runToks ts (R ++ Z) = none) := by
  intro ts
  induction ts with
  | nil =>
    intro R
    constructor
    · intro r h
      obtain rfl : R = r := by
        have : SimRes.ok R = SimRes.ok r := h
        injection this
      rfl
    · intro h; cases h
  | cons t ts ih =>
    intro R
    cases t with
    | lit w =>
      rcases hs : simStrip w R with _ | r0 | _
      · constructor
        · intro r h
          rw [simRun, hs] at h
          cases h
        · intro _
          rw [runToks, (simStrip_sound Z w R).2 hs]
      · constructor
        · intro r h
          rw [simRun, hs] at h
          rw [runToks, (simStrip_sound Z w R).1 r0 hs]
          exact (ih r0).1 r h
        · intro h
          rw [simRun, hs] at h
          rw [runToks, (simStrip_sound Z w R).1 r0 hs]
          exact (ih r0).2 h
      · constructor
        · intro r h
          rw [simRun, hs] at h
          cases h
        · intro h
          rw [simRun, hs] at h
          cases h
    | pdot req =>
      cases R with
      | nil =>
        constructor
        · intro r h; cases h
        · intro h; cases h
      | cons c cs =>
        by_cases hc : c = '.'
        · constructor
          · intro r h
            rw [simRun, if_pos hc] at h
            rw [List.cons_append, runToks, if_pos hc]
            exact (ih cs).1 r h
          · intro h
            rw [simRun, if_pos hc] at h
            rw [List.cons_append, runToks, if_pos hc]
            exact (ih cs).2 h
        · by_cases hreq : req = true
          · constructor
            · intro r h
              rw [simRun, if_neg hc, if_pos hreq] at h
              cases h
            · intro _
              rw [List.cons_append, runToks, if_neg hc, if_pos hreq]
          · have hreq' : req = false := by cases req; rfl; exact absurd rfl hreq
            subst hreq'
            constructor
            · intro r h
              rw [simRun, if_neg hc, if_neg (by simp)] at h
              rw [List.cons_append, runToks, if_neg hc, if_neg (by simp),
                ← List.cons_append]
              exact (ih (c :: cs)).1 r h
            · intro h
              rw [simRun, if_neg hc, if_neg (by simp)] at h
              rw [List.cons_append, runToks, if_neg hc, if_neg (by simp),
                ← List.cons_append]
              exact (ih (c :: cs)).2 h
    | pws one =>
      by_cases hall : R.takeWhile isPyWs = R
      · constructor
        · intro r h
          rw [simRun, if_pos hall] at h
          cases h
        · intro h
          rw [simRun, if_pos hall] at h
          cases h
      · have htw : (R ++ Z).takeWhile isPyWs = R.takeWhile isPyWs :=
          takeWhile_append_of_ne isPyWs R Z hall
        by_cases hfail : one = true ∧ R.takeWhile isPyWs = []
        · constructor
          · intro r h
            rw [simRun, if_neg hall, if_pos hfail] at h
            cases h
          · intro _
            rw [runToks]
            simp only [htw]
            rw [if_pos hfail]
        · have hdrop : (R ++ Z).drop (R.takeWhile isPyWs).length =
              R.drop (R.takeWhile isPyWs).length ++ Z :=
            List.drop_append_of_le_length
              (List.IsPrefix.length_le (List.takeWhile_prefix isPyWs))
          constructor
          · intro r h
            rw [simRun, if_neg hall, if_neg hfail] at h
            rw [runToks]
            simp only [htw]
            rw [if_neg hfail, hdrop]
            exact (ih _).1 r h
          · intro h
            rw [simRun, if_neg hall, if_neg hfail] at h
            rw [runToks]
            simp only [htw]
            rw [if_neg hfail, hdrop]
            exact (ih _).2 h

/-- Soundness of the prefix check: if `failsWithin` accepts, the pattern
fails on every text that starts with the prefix. -/
theorem failsWithin_sound (ts : List RTok) (R : List Char)
    (h : failsWithin ts R = true) (Z : List Char) : mAt ts (R ++ Z) = none := by
  rw [failsWithin] at h
  rcases hs : simRun ts R with _ | rest | _
  · rw [mAt, (simRun_sound Z ts R).2 hs]
  · rw [hs] at h
    cases rest with
    | nil => cases h
    | cons c cs =>
      have hw : isWordChar c = true := h
      rw [mAt, (simRun_sound Z ts R).1 _ hs]
      dsimp only
      rw [List.cons_append]
      rw [if_neg (by simp [bndOk, hw])]
  · rw [hs] at h; cases h

/-- `nmWithin` at the strong initial flag gives `nmWithin` at any flag. -/
theorem nmWithin_mono (ts : List RTok) (R : List Char)
    (h : nmWithin ts R true = true) : ∀ b, nmWithin ts R b = true := by
  intro b
  cases R with
  | nil => rfl
  | cons c cs =>
    rw [nmWithin, Bool.and_eq_true] at h ⊢
    refine ⟨?_, h.2⟩
    cases b
    · simp
    · exact h.1

/-- Soundness of the no-match-within check: prepending a word-char-
terminated block that `nmWithin` accepts preserves scan-wide
match-freeness. -/
theorem nmWithin_sound (ts : List RTok) :
    ∀ (R : List Char) (cl : Char), R.getLast? = some cl → isWordChar cl = true →
      ∀ b, nmWithin ts R b = true →
      ∀ x, noMatchTs ts x false = true → noMatchTs ts (R ++ x) b = true := by
  intro R
  induction R with
  | nil => intro cl hcl; cases hcl
  | cons c cs ih =>
    intro cl hcl hw b hnm x hx
    rw [nmWithin, Bool.and_eq_true] at hnm
    rw [List.cons_append, noMatchTs, Bool.and_eq_true]
    constructor
    · cases b with
      | false => simp
      | true =>
        have hf : failsWithin ts (c :: cs) = true := by simpa using hnm.1
        have hmm := failsWithin_sound ts (c :: cs) hf x
        rw [List.cons_append] at hmm
        simp [hmm]
    · cases cs with
      | nil =>
        obtain rfl : c = cl := by simpa using hcl
        simpa [hw] using hx
      | cons c2 cs2 =>
        rw [List.getLast?_cons_cons] at hcl
        exact ih cl hcl hw (!isWordChar c) hnm.2 x hx

/-- Every abstract matcher state is in the computable state list. -/
theorem stateOf_mem (p : Pat) (ts : List RTok) (h : stateOf p ts) :
    ts ∈ statesList p := by
  rw [statesList]
  rcases h with rfl | ⟨u, hune, husuf, rfl⟩ | ⟨d, w2, hrest, hcase⟩
  · exact List.mem_append_left _ (List.mem_append_left _ (by simp))
  · refine List.mem_append_left _ (List.mem_append_right _ ?_)
    refine List.mem_map.mpr ⟨u, List.mem_filter.mpr ⟨(List.mem_tails u _).mpr husuf, ?_⟩, rfl⟩
    simpa using hune
  · refine List.mem_append_right _ ?_
    rw [hrest]
    rcases hcase with rfl | rfl | rfl | ⟨u, hune, husuf, rfl⟩
    · rw [hrest]
      exact List.mem_append_left _ (by simp)
    · exact List.mem_append_left _ (by simp)
    · exact List.mem_append_left _ (by simp)
    · refine List.mem_append_right _ ?_
      refine List.mem_map.mpr ⟨u, List.mem_filter.mpr ⟨(List.mem_tails u _).mpr husuf, ?_⟩, rfl⟩
      simpa using hune

/-- Discharge the transfer-lemma obligation from the decidable check over
the computable state list. -/
theorem hrepl_of_statesList (pj : Pat) (R : List Char)
    (hall : (statesList pj).all (fun ts => failsWithin ts R) = true) :
    ∀ ts, stateOf pj ts → ∀ X, mAt ts (R ++ X) = none := by
  intro ts h X
  refine failsWithin_sound ts R ?_ X
  simpa using List.all_eq_true.mp hall ts (stateOf_mem pj ts h)

/-- A full substitution pass leaves the output free of matches of `pj`: in
the self case (`pj = ps`) because every match site was replaced, and in
the preservation case because the input was already match-free.  Needs:
every `pj`-state fails on replacement-headed text (`hrepl`), the
replacement ends in a word character (`hflag`), and prepending the
replacement preserves match-freeness (`hnm`). -/
theorem bigStep (ps pj : Pat) (repl : List Char) (hpj : patShape pj)
    (hrepl : ∀ ts, stateOf pj ts → ∀ X, mAt ts (repl ++ X) = none)
    (hflag : flagAfter repl true = false)
    (hnm : ∀ x b, noMatchTs pj.toks x false = true →
      noMatchTs pj.toks (repl ++ x) b = true) :
    ∀ (n : Nat) (s : List Char) (b : Bool) (fuel : Nat), s.length ≤ n → s.length ≤ fuel →
      (pj = ps ∨ noMatchTs pj.toks s b = true) →
      noMatchTs pj.toks (subAuxF ps repl fuel s b) b = true := by
  intro n
  induction n using Nat.strong_induction_on with
  | _ n ih =>
  intro s b fuel hn hf hsel
  cases s with
  | nil => rw [subAuxF_nil]; rfl
  | cons c cs =>
    simp only [List.length_cons] at hn hf
    cases fuel with
    | zero => omega
    | succ fuel =>
      have hselcs : pj = ps ∨ noMatchTs pj.toks cs (!isWordChar c) = true := by
        rcases hsel with rfl | h
        · exact Or.inl rfl
        · rw [noMatchTs, Bool.and_eq_true] at h
          exact Or.inr h.2
      cases b with
      | false =>
        rw [subAuxF_cons_false, noMatchTs, Bool.and_eq_true]
        exact ⟨by simp, ih cs.length (by omega) cs (!isWordChar c) fuel le_rfl
          (by omega) hselcs⟩
      | true =>
        rcases hmm : mAt ps.toks (c :: cs) with _ | rest
        · rw [subAuxF_cons_nomatch _ _ _ _ _ _ hmm, noMatchTs, Bool.and_eq_true]
          constructor
          · have hm0 : mAt pj.toks (c :: cs) = none := by
              rcases hsel with rfl | h
              · exact hmm
              · rw [noMatchTs, Bool.and_eq_true] at h
                have h1 := h.1
                simp only [Bool.true_or, Bool.not_true, Bool.false_or,
                  Option.isNone_iff_eq_none] at h1
                exact h1
            have htrans := transGen ps repl pj hpj hrepl
              (2 * (c :: cs).length + toksWeight pj.toks) pj.toks (c :: cs) true (fuel + 1)
              le_rfl (by simp; omega) (stateOf_start pj) hm0
            rw [subAuxF_cons_nomatch _ _ _ _ _ _ hmm] at htrans
            simp [htrans]
          · exact ih cs.length (by omega) cs (!isWordChar c) fuel le_rfl (by omega) hselcs
        · rw [subAuxF_cons_match _ _ _ _ _ _ hmm, hflag]
          apply hnm
          have hlen := mAt_some_len ps _ _ hmm
          simp only [List.length_cons] at hlen
          refine ih rest.length (by omega) rest false fuel le_rfl (by omega) ?_
          rcases hsel with rfl | h
          · exact Or.inl rfl
          · refine Or.inr ?_
            obtain ⟨u, hu, hune⟩ := mAt_split ps _ _ hmm
            rw [hu] at h
            have hsuf := noMatchTs_suffix pj.toks u rest true h
            cases hfa : flagAfter u true
            · rw [hfa] at hsuf; exact hsuf
            · rw [hfa] at hsuf; exact noMatchTs_mono _ _ hsuf false

/-- `subPat` form of `bigStep`, with all side conditions decidable. -/
theorem subPat_noMatch (ps pj : Pat) (repl : List Char) (hpj : patShape pj)
    (h1 : (statesList pj).all (fun ts => failsWithin ts repl) = true)
    (h2 : flagAfter repl true = false)
    (cl : Char) (hcl : repl.getLast? = some cl) (hw : isWordChar cl = true)
    (h3 : nmWithin pj.toks repl true = true)
    (s : List Char) (hsel : pj = ps ∨ noMatchTs pj.toks s true = true) :
    noMatchTs pj.toks (subPat ps repl s) true = true := by
  have hrepl := hrepl_of_statesList pj repl h1
  have hnm : ∀ x b, noMatchTs pj.toks x false = true →
      noMatchTs pj.toks (repl ++ x) b = true :=
    fun x b hx => nmWithin_sound pj.toks repl cl hcl hw b (nmWithin_mono _ _ h3 b) x hx
  rw [subPat]
  exact bigStep ps pj repl hpj hrepl h2 hnm s.length s true s.length le_rfl le_rfl hsel

/-- On the empty string the matcher consumes nothing. -/
theorem runToks_nil_some (ts : List RTok) (r : List Char)
    (h : runToks ts [] = some r) : r = [] := by
  obtain ⟨u, hu⟩ := runToks_split ts [] r h
  exact (List.append_eq_nil.mp hu.symm).2

/-- A comma-free literal treats a comma-headed extension of the text like
its end: the verdicts on the extended text follow those on the text. -/
theorem stripCI_comma_ext (v2 : List Char) :
    ∀ (u : List Char), u.all (fun a => !(a.toLower = ',')) = true → ∀ (w : List Char),
      ((∀ r, stripCI u w = some r → stripCI u (w ++ ',' :: v2) = some (r ++ ',' :: v2)) ∧
       (stripCI u w = none → stripCI u (w ++ ',' :: v2) = none)) := by
  intro u
  induction u with
  | nil =>
    intro _ w
    constructor
    · intro r h
      obtain rfl : w = r := by
        have hh : some w = some r := h
        injection hh
      rfl
    · intro h; cases h
  | cons a u ih =>
    intro hall w
    rw [List.all_cons, Bool.and_eq_true] at hall
    have ha : ¬((',' : Char).toLower = a.toLower) := by
      rw [show (',' : Char).toLower = ',' from by decide]
      intro hh
      simp [← hh] at hall
    cases w with
    | nil =>
      constructor
      · intro r h; cases h
      · intro _
        rw [List.nil_append, stripCI, if_neg ha]
    | cons c cs =>
      by_cases hc : c.toLower = a.toLower
      · constructor
        · intro r h
          rw [stripCI, if_pos hc] at h
          rw [List.cons_append, stripCI, if_pos hc]
          exact (ih hall.2 cs).1 r h
        · intro h
          rw [stripCI, if_pos hc] at h
          rw [List.cons_append, stripCI, if_pos hc]
          exact (ih hall.2 cs).2 h
      · constructor
        · intro r h
          rw [stripCI, if_neg hc] at h
          cases h
        · intro _
          rw [List.cons_append, stripCI, if_neg hc]

/-- With comma-free literals, the matcher treats a comma exactly like the
end of the string. -/
theorem runToks_comma (v2 : List Char) :
    ∀ ts : List RTok, litCharsOk ts = true →
      ((runToks ts [] = none → runToks ts (',' :: v2) = none) ∧
       (∀ r, runToks ts [] = some r → runToks ts (',' :: v2) = some (',' :: v2))) := by
  intro ts
  induction ts with
  | nil =>
    intro _
    constructor
    · intro h; cases h
    · intro r _; rfl
  | cons t ts ih =>
    intro hok
    cases t with
    | lit u =>
      rw [litCharsOk, Bool.and_eq_true] at hok
      have e0 : ∀ s, runToks (.lit [] :: ts) s = runToks ts s := fun s => rfl
      cases u with
      | nil =>
        constructor
        · intro h
          rw [e0] at h ⊢
          exact (ih hok.2).1 h
        · intro r h
          rw [e0] at h ⊢
          exact (ih hok.2).2 r h
      | cons a u =>
        have ha : ¬((',' : Char).toLower = a.toLower) := by
          rw [show (',' : Char).toLower = ',' from by decide]
          intro hh
          simp [List.all_cons, ← hh] at hok
        have e1 : runToks (.lit (a :: u) :: ts) (',' :: v2) = none := by
          rw [runToks, stripCI, if_neg ha]
        constructor
        · intro _; exact e1
        · intro r h
          rw [runToks, stripCI] at h
          cases h
    | pdot req =>
      rw [litCharsOk] at hok
      cases req with
      | true =>
        constructor
        · intro _
          rw [runToks, if_neg (by decide), if_pos rfl]
        · intro r h
          rw [runToks, if_pos rfl] at h
          cases h
      | false =>
        have e2 : runToks (.pdot false :: ts) (',' :: v2) = runToks ts (',' :: v2) := by
          rw [runToks, if_neg (by decide), if_neg (by simp)]
        have e3 : runToks (.pdot false :: ts) [] = runToks ts [] := by
          rw [runToks, if_neg (by simp)]
        constructor
        · intro h
          rw [e3] at h
          rw [e2]
          exact (ih hok).1 h
        · intro r h
          rw [e3] at h
          rw [e2]
          exact (ih hok).2 r h
    | pws one =>
      rw [litCharsOk] at hok
      have etw : (',' :: v2).takeWhile isPyWs = [] :=
        List.takeWhile_cons_of_neg (by decide)
      cases one with
      | true =>
        constructor
        · intro _
          rw [runToks]
          simp only [etw]
          rw [if_pos (by simp)]
        · intro r h
          rw [runToks] at h
          simp only [List.takeWhile_nil] at h
          rw [if_pos (by simp)] at h
          cases h
      | false =>
        have e4 : runToks (.pws false :: ts) (',' :: v2) = runToks ts (',' :: v2) := by
          rw [runToks]
          simp only [etw]
          rw [if_neg (by simp)]
          rfl
        have e5 : runToks (.pws false :: ts) [] = runToks ts [] := by
          rw [runToks]
          simp only [List.takeWhile_nil]
          rw [if_neg (by simp)]
          rfl
        constructor
        · intro h
          rw [e5] at h
          rw [e4]
          exact (ih hok).1 h
        · intro r h
          rw [e5] at h
          rw [e4]
          exact (ih hok).2 r h

/-- With comma-free literals, the matcher's verdict on `w` carries over to
`w` extended by a comma-headed tail. -/
theorem runToks_extend (v2 : List Char) :
    ∀ (ts : List RTok), litCharsOk ts = true → ∀ (w : List Char),
      ((∀ r, runToks ts w = some r →
          runToks ts (w ++ ',' :: v2) = some (r ++ ',' :: v2)) ∧
       (runToks ts w = none → runToks ts (w ++ ',' :: v2) = none)) := by
  intro ts
  induction ts with
  | nil =>
    intro _ w
    constructor
    · intro r h
      obtain rfl : w = r := by injection h
      rfl
    · intro h; cases h
  | cons t ts ih =>
    intro hok w
    cases t with
    | lit u =>
      rw [litCharsOk, Bool.and_eq_true] at hok
      rcases hs : stripCI u w with _ | r0
      · have hs2 := (stripCI_comma_ext v2 u hok.1 w).2 hs
        constructor
        · intro r h
          rw [runToks, hs] at h
          cases h
        · intro _
          rw [runToks, hs2]
      · have hs2 := (stripCI_comma_ext v2 u hok.1 w).1 r0 hs
        constructor
        · intro r h
          rw [runToks, hs] at h
          rw [runToks, hs2]
          exact (ih hok.2 r0).1 r h
        · intro h
          rw [runToks, hs] at h
          rw [runToks, hs2]
          exact (ih hok.2 r0).2 h
    | pdot req =>
      rw [litCharsOk] at hok
      cases w with
      | nil =>
        cases req with
        | true =>
          constructor
          · intro r h
            rw [runToks, if_pos rfl] at h
            cases h
          · intro _
            rw [List.nil_append, runToks, if_neg (by decide), if_pos rfl]
        | false =>
          have e3 : runToks (.pdot false :: ts) [] = runToks ts [] := by
            rw [runToks, if_neg (by simp)]
          have e2 : runToks (.pdot false :: ts) (',' :: v2) = runToks ts (',' :: v2) := by
            rw [runToks, if_neg (by decide), if_neg (by simp)]
          constructor
          · intro r h
            rw [e3] at h
            obtain rfl := runToks_nil_some ts r h
            rw [List.nil_append, e2]
            exact (runToks_comma v2 ts hok).2 [] h
          · intro h
            rw [e3] at h
            rw [List.nil_append, e2]
            exact (runToks_comma v2 ts hok).1 h
      | cons c cs =>
        by_cases hc : c = '.'
        · constructor
          · intro r h
            rw [runToks, if_pos hc] at h
            rw [List.cons_append, runToks, if_pos hc]
            exact (ih hok cs).1 r h
          · intro h
            rw [runToks, if_pos hc] at h
            rw [List.cons_append, runToks, if_pos hc]
            exact (ih hok cs).2 h
        · cases req with
          | true =>
            constructor
            · intro r h
              rw [runToks, if_neg hc, if_pos rfl] at h
              cases h
            · intro _
              rw [List.cons_append, runToks, if_neg hc, if_pos rfl]
          | false =>
            constructor
            · intro r h
              rw [runToks, if_neg hc, if_neg (by simp)] at h
              rw [List.cons_append, runToks, if_neg hc, if_neg (by simp),
                ← List.cons_append]
              exact (ih hok (c :: cs)).1 r h
            · intro h
              rw [runToks, if_neg hc, if_neg (by simp)] at h
              rw [List.cons_append, runToks, if_neg hc, if_neg (by simp),
                ← List.cons_append]
              exact (ih hok (c :: cs)).2 h
    | pws one =>
      rw [litCharsOk] at hok
      cases w with
      | nil =>
        have etw : (',' :: v2).takeWhile isPyWs = [] :=
          List.takeWhile_cons_of_neg (by decide)
        cases one with
        | true =>
          constructor
          · intro r h
            rw [runToks] at h
            simp only [List.takeWhile_nil] at h
            rw [if_pos (by simp)] at h
            cases h
          · intro _
            rw [List.nil_append, runToks]
            simp only [etw]
            rw [if_pos (by simp)]
        | false =>
          have e5 : runToks (.pws false :: ts) [] = runToks ts [] := by
            rw [runToks]
            simp only [List.takeWhile_nil]
            rw [if_neg (by simp)]
            rfl
          have e4 : runToks (.pws false :: ts) (',' :: v2) = runToks ts (',' :: v2) := by
            rw [runToks]
            simp only [etw]
            rw [if_neg (by simp)]
            rfl
          constructor
          · intro r h
            rw [e5] at h
            obtain rfl := runToks_nil_some ts r h
            rw [List.nil_append, e4]
            exact (runToks_comma v2 ts hok).2 [] h
          · intro h
            rw [e5] at h
            rw [List.nil_append, e4]
            exact (runToks_comma v2 ts hok).1 h
      | cons d ds =>
        by_cases hall : (d :: ds).takeWhile isPyWs = d :: ds
        · have htw : ((d :: ds) ++ ',' :: v2).takeWhile isPyWs = d :: ds := by
            rw [takeWhile_append_of_all isPyWs _ _ hall,
              List.takeWhile_cons_of_neg (by decide), List.append_nil]
          have hdrop : ((d :: ds) ++ ',' :: v2).drop (d :: ds).length = ',' :: v2 :=
            List.drop_left _ _
          have eL : runToks (.pws one :: ts) (d :: ds) = runToks ts [] := by
            rw [runToks]
            simp only [hall]
            rw [if_neg (by simp)]
            simp
          have eR : runToks (.pws one :: ts) ((d :: ds) ++ ',' :: v2) =
              runToks ts (',' :: v2) := by
            rw [runToks]
            simp only [htw]
            rw [if_neg (by simp)]
            rw [hdrop]
          constructor
          · intro r h
            rw [eL] at h
            obtain rfl := runToks_nil_some ts r h
            rw [eR]
            exact (runToks_comma v2 ts hok).2 [] h
          · intro h
            rw [eL] at h
            rw [eR]
            exact (runToks_comma v2 ts hok).1 h
        · have htw : ((d :: ds) ++ ',' :: v2).takeWhile isPyWs =
              (d :: ds).takeWhile isPyWs :=
            takeWhile_append_of_ne isPyWs _ _ hall
          have hdrop : ((d :: ds) ++ ',' :: v2).drop ((d :: ds).takeWhile isPyWs).length =
              (d :: ds).drop ((d :: ds).takeWhile isPyWs).length ++ ',' :: v2 :=
            List.drop_append_of_le_length
              (List.IsPrefix.length_le (List.takeWhile_prefix isPyWs))
          by_cases hcond : one = true ∧ (d :: ds).takeWhile isPyWs = []
          · constructor
            · intro r h
              rw [runToks] at h
              rw [if_pos hcond] at h
              cases h
            · intro _
              rw [runToks]
              simp only [htw]
              rw [if_pos hcond]
          · constructor
            · intro r h
              rw [runToks, if_neg hcond] at h
              rw [runToks]
              simp only [htw]
              rw [if_neg hcond, hdrop]
              exact (ih hok _).1 r h
            · intro h
              rw [runToks, if_neg hcond] at h
              rw [runToks]
              simp only [htw]
              rw [if_neg hcond, hdrop]
              exact (ih hok _).2 h

/-- Appending a comma-headed tail cannot turn a failing position of a
comma-free pattern into a match. -/
theorem mAt_comma_ext (ts : List RTok) (hok : litCharsOk ts = true) (v2 : List Char)
    (w : List Char) (h : mAt ts w = none) : mAt ts (w ++ ',' :: v2) = none := by
  rw [mAt] at h ⊢
  rcases hr : runToks ts w with _ | r
  · rw [(runToks_extend v2 ts hok w).2 hr]
  · rw [hr] at h
    dsimp only at h
    by_cases hb : bndOk r = true
    · rw [if_pos hb] at h; cases h
    · rw [(runToks_extend v2 ts hok w).1 r hr]
      dsimp only
      cases r with
      | nil => exact absurd rfl hb
      | cons c cs =>
        have hc : isWordChar c = true := by
          by_contra hcc
          exact hb (by simp [bndOk, hcc])
        rw [List.cons_append, if_neg (by simp [bndOk, hc])]

/-- Appending a tail that is match-free and that cannot complete a pending
match keeps a match-free string match-free. -/
theorem noMatchTs_append_ext (ts : List RTok) (v : List Char)
    (hext : ∀ w, mAt ts w = none → mAt ts (w ++ v) = none)
    (hv : ∀ b2, noMatchTs ts v b2 = true) :
    ∀ (u : List Char) (b : Bool), noMatchTs ts u b = true →
      noMatchTs ts (u ++ v) b = true := by
  intro u
  induction u with
  | nil => intro b _; exact hv b
  | cons c cs ih =>
    intro b hu
    rw [noMatchTs, Bool.and_eq_true] at hu
    rw [List.cons_append, noMatchTs, Bool.and_eq_true]
    refine ⟨?_, ih _ hu.2⟩
    cases b with
    | false => simp
    | true =>
      have h1 := hu.1
      simp only [Bool.not_true, Bool.false_or, Option.isNone_iff_eq_none] at h1
      have h2 := hext (c :: cs) h1
      rw [List.cons_append] at h2
      simp [h2]

/-- Substring containment is preserved by prepending. -/
theorem containsSub_append_right (w : List Char) : ∀ (u v : List Char),
    containsSub w v = true → containsSub w (u ++ v) = true := by
  intro u
  induction u with
  | nil => intro v h; exact h
  | cons c cs ih =>
    intro v h
    rw [List.cons_append, containsSub, Bool.or_eq_true]
    exact Or.inr (ih v h)

/-- After `normalize_address`, no expansion pattern matches anywhere in
the result: each pass eliminates its own pattern, and no later pass can
reintroduce an earlier one, because no replacement text (or part of it)
re-enters any matcher state of a pattern already processed. -/
theorem normalize_address_noMatch (s : String) :
    ∀ pr ∈ nolaExpansions,
      noMatchTs pr.1.toks (normalize_address s).data true = true := by
  have hs1 : patShape patTchoup := Or.inl rfl
  have hs2 : patShape patStPhillip := Or.inr ⟨false, "phillip".data, by decide, rfl⟩
  have hs3 : patShape patRoberston := Or.inl rfl
  have hs4 : patShape patSPeters := Or.inr ⟨true, "peters".data, by decide, rfl⟩
  have hs5 : patShape patNRobertson := Or.inr ⟨true, "robertson".data, by decide, rfl⟩
  have e : (normalize_address s).data =
      subPat patNRobertson replNRobertson (subPat patSPeters replSPeters
        (subPat patRoberston replRoberston (subPat patStPhillip replStPhillip
          (subPat patTchoup replTchoup s.data)))) := rfl
  have a11 := subPat_noMatch patTchoup patTchoup replTchoup hs1 (by decide) (by decide)
    's' (by decide) (by decide) (by decide) s.data (Or.inl rfl)
  have a12 := subPat_noMatch patStPhillip patTchoup replStPhillip hs1 (by decide) (by decide)
    'p' (by decide) (by decide) (by decide) _ (Or.inr a11)
  have a13 := subPat_noMatch patRoberston patTchoup replRoberston hs1 (by decide) (by decide)
    'n' (by decide) (by decide) (by decide) _ (Or.inr a12)
  have a14 := subPat_noMatch patSPeters patTchoup replSPeters hs1 (by decide) (by decide)
    's' (by decide) (by decide) (by decide) _ (Or.inr a13)
  have a15 := subPat_noMatch patNRobertson patTchoup replNRobertson hs1 (by decide) (by decide)
    'n' (by decide) (by decide) (by decide) _ (Or.inr a14)
  have a22 := subPat_noMatch patStPhillip patStPhillip replStPhillip hs2 (by decide) (by decide)
    'p' (by decide) (by decide) (by decide)
    (subPat patTchoup replTchoup s.data) (Or.inl rfl)
  have a23 := subPat_noMatch patRoberston patStPhillip replRoberston hs2 (by decide) (by decide)
    'n' (by decide) (by decide) (by decide) _ (Or.inr a22)
  have a24 := subPat_noMatch patSPeters patStPhillip replSPeters hs2 (by decide) (by decide)
    's' (by decide) (by decide) (by decide) _ (Or.inr a23)
  have a25 := subPat_noMatch patNRobertson patStPhillip replNRobertson hs2 (by decide)
    (by decide) 'n' (by decide) (by decide) (by decide) _ (Or.inr a24)
  have a33 := subPat_noMatch patRoberston patRoberston replRoberston hs3 (by decide) (by decide)
    'n' (by decide) (by decide) (by decide)
    (subPat patStPhillip replStPhillip (subPat patTchoup replTchoup s.data)) (Or.inl rfl)
  have a34 := subPat_noMatch patSPeters patRoberston replSPeters hs3 (by decide) (by decide)
    's' (by decide) (by decide) (by decide) _ (Or.inr a33)
  have a35 := subPat_noMatch patNRobertson patRoberston replNRobertson hs3 (by decide)
    (by decide) 'n' (by decide) (by decide) (by decide) _ (Or.inr a34)
  have a44 := subPat_noMatch patSPeters patSPeters replSPeters hs4 (by decide) (by decide)
    's' (by decide) (by decide) (by decide)
    (subPat patRoberston replRoberston (subPat patStPhillip replStPhillip
      (subPat patTchoup replTchoup s.data))) (Or.inl rfl)
  have a45 := subPat_noMatch patNRobertson patSPeters replNRobertson hs4 (by decide)
    (by decide) 'n' (by decide) (by decide) (by decide) _ (Or.inr a44)
  have a55 := subPat_noMatch patNRobertson patNRobertson replNRobertson hs5 (by decide)
    (by decide) 'n' (by decide) (by decide) (by decide)
    (subPat patSPeters replSPeters (subPat patRoberston replRoberston
      (subPat patStPhillip replStPhillip (subPat patTchoup replTchoup s.data))))
    (Or.inl rfl)
  intro pr hpr
  rw [e]
  simp only [nolaExpansions, List.mem_cons, List.not_mem_nil, or_false] at hpr
  rcases hpr with rfl | rfl | rfl | rfl | rfl
  · exact a15
  · exact a25
  · exact a35
  · exact a45
  · exact a55

/-- A string in which no expansion pattern matches is a fixed point of
`normalize_address`. -/
theorem normalize_address_fix (t : String)
    (h : ∀ pr ∈ nolaExpansions, noMatchTs pr.1.toks t.data true = true) :
    normalize_address t = t := by
  have h1 := h (patTchoup, replTchoup) (by simp [nolaExpansions])
  have h2 := h (patStPhillip, replStPhillip) (by simp [nolaExpansions])
  have h3 := h (patRoberston, replRoberston) (by simp [nolaExpansions])
  have h4 := h (patSPeters, replSPeters) (by simp [nolaExpansions])
  have h5 := h (patNRobertson, replNRobertson) (by simp [nolaExpansions])
  have e1 : subPat patTchoup replTchoup t.data = t.data := by
    rw [subPat]; exact subAuxF_of_noMatchTs _ _ _ _ _ le_rfl h1
  have e2 : subPat patStPhillip replStPhillip t.data = t.data := by
    rw [subPat]; exact subAuxF_of_noMatchTs _ _ _ _ _ le_rfl h2
  have e3 : subPat patRoberston replRoberston t.data = t.data := by
    rw [subPat]; exact subAuxF_of_noMatchTs _ _ _ _ _ le_rfl h3
  have e4 : subPat patSPeters replSPeters t.data = t.data := by
    rw [subPat]; exact subAuxF_of_noMatchTs _ _ _ _ _ le_rfl h4
  have e5 : subPat patNRobertson replNRobertson t.data = t.data := by
    rw [subPat]; exact subAuxF_of_noMatchTs _ _ _ _ _ le_rfl h5
  rw [normalize_address]
  simp only [nolaExpansions, List.foldl_cons, List.foldl_nil]
  rw [e1, e2, e3, e4, e5]

/-- C5: the address normalizer is idempotent.  For every string `s`,
applying `ensure_nola` (the five abbreviation-expansion passes followed by
the conditional locality-suffix appension) to its own output returns that
output unchanged: no expansion re-matches its replacement text, and the
locality suffix — which itself contains "New Orleans" — is never appended
twice. -/
theorem ensure_nola_idempotent (s : String) :
    ensure_nola (ensure_nola s) = ensure_nola s := by
  have eu : ∀ t : String, ensure_nola t =
      if containsSub "new orleans".data (lowerChars (normalize_address t).data)
          || containsSub "louisiana".data (lowerChars (normalize_address t).data) then
        normalize_address t
      else normalize_address t ++ nolaSuffix := fun t => rfl
  have hnm := normalize_address_noMatch s
  by_cases hc : (containsSub "new orleans".data (lowerChars (normalize_address s).data)
      || containsSub "louisiana".data (lowerChars (normalize_address s).data)) = true
  · have e1 : ensure_nola s = normalize_address s := by
      rw [eu s, if_pos hc]
    have efix : normalize_address (normalize_address s) = normalize_address s :=
      normalize_address_fix _ hnm
    rw [e1, eu (normalize_address s), efix, if_pos hc]
  · have e1 : ensure_nola s = normalize_address s ++ nolaSuffix := by
      rw [eu s, if_neg hc]
    have hdata : (normalize_address s ++ nolaSuffix).data =
        (normalize_address s).data ++ ',' :: " New Orleans, Louisiana".data := by
      rw [String.data_append]
      rfl
    have hnm2 : ∀ pr ∈ nolaExpansions,
        noMatchTs pr.1.toks (normalize_address s ++ nolaSuffix).data true = true := by
      intro pr hpr
      have hlit : litCharsOk pr.1.toks = true := by
        simp only [nolaExpansions, List.mem_cons, List.not_mem_nil, or_false] at hpr
        rcases hpr with rfl | rfl | rfl | rfl | rfl
        · decide
        · decide
        · decide
        · decide
        · decide
      have hsufnm : noMatchTs pr.1.toks (',' :: " New Orleans, Louisiana".data)
          true = true := by
        simp only [nolaExpansions, List.mem_cons, List.not_mem_nil, or_false] at hpr
        rcases hpr with rfl | rfl | rfl | rfl | rfl
        · decide
        · decide
        · decide
        · decide
        · decide
      rw [hdata]
      exact noMatchTs_append_ext pr.1.toks _
        (fun w hw => mAt_comma_ext pr.1.toks hlit _ w hw)
        (noMatchTs_mono _ _ hsufnm) _ true (hnm pr hpr)
    have efix : normalize_address (normalize_address s ++ nolaSuffix) =
        normalize_address s ++ nolaSuffix := normalize_address_fix _ hnm2
    have hcontains : containsSub "new orleans".data
        (lowerChars (normalize_address s ++ nolaSuffix).data) = true := by
      rw [String.data_append]
      simp only [lowerChars, List.map_append]
      exact containsSub_append_right _ _ _ (by decide)
    rw [e1, eu (normalize_address s ++ nolaSuffix), efix, hcontains, Bool.true_or, if_pos rfl]

end NolaGeo
